import Mathlib

/-!
# The programs of `OS-projects`: `interface.c`, `fact.c`, `pager.c`

A shallow embedding of the shell interface `osh`
(`ProgrammingAssignment2/interface.c`: the command loop, the argument tokenizer
and the circular history buffer), of the factorial program
(`ProgrammingAssignment1/fact.c`) and of the page-replacement simulator
(`ProgrammingAssignment4/pager.c`), followed by the properties of the
specification that are settled against them. The definitions of the three
programs come first (namespaces `Osh`, `Fact`, `Pager`), then the theorems.

Conventions of the embedding

* a `char` buffer is a `List Char`; the byte `'\0'` is `NUL`; a C string is the
  run of bytes from a start offset up to the first `NUL`;
* `int` values are `Int`; the `int` values that are incremented or multiplied
  (`command_count`, the products of `factorial`) or converted from a `long`
  (the result of `atoi`) are wrapped to 32 bits in two's complement;
* pointers returned by `malloc` are block identities (`Ptr.heap`), never
  returned twice;
* a loop is a function with fuel; a cell of an array that the code may leave
  unassigned is an `Option`.
-/

namespace Osh

/-! ## Bytes and C strings -/

/-- The terminator `'\0'` of a C string. -/
def NUL : Char := Char.ofNat 0

/-- Maximum command length, `#define MAX_LINE 80`. -/
def MAX_LINE : Nat := 80

/-- Number of slots of the history array, `#define HISTORY_CAPACITY 10`. -/
def HISTORY_CAPACITY : Nat := 10

/-- The byte `command[i]` of a buffer; the bytes consulted by the code always lie
at or before the first terminator, so the value past the end of the list is
never used (it is taken to be `NUL`). -/
def byteAt (command : List Char) (i : Nat) : Char := command.getD i NUL

/-- The C string that starts at `&command[j]`: the bytes up to the first `NUL`. -/
def cstrAt (command : List Char) (j : Nat) : List Char :=
  (command.drop j).takeWhile (fun c => decide (c ≠ NUL))

/-! ## `parse_args` -/

/-- First loop of `parse_args`:
`for (i = 0; command[i] != '\0'; i++) if (command[i] == ' ') count++;`. -/
def parse_args_count (command : List Char) : Nat → Nat → Nat → Nat
  | 0, _, count => count
  | fuel + 1, i, count =>
    if byteAt command i = NUL then count
    else if byteAt command i = ' ' then parse_args_count command fuel (i + 1) (count + 1)
    else parse_args_count command fuel (i + 1) count

/-- The variables of the second loop of `parse_args`. A store `args[k] = v` is
logged as the pair `(k, v)`, where `some j` stands for `&command[j]` and `none`
for `NULL`. -/
structure SplitState where
  command : List Char
  writes : List (Nat × Option Nat)
  j : Nat
  arg_index : Nat
deriving DecidableEq, Repr

/-- Second loop of `parse_args`: every space is overwritten with `'\0'` and the
start of the field it closes is stored at `args[arg_index]`. -/
def parse_args_split : Nat → SplitState → Nat → SplitState
  | 0, st, _ => st
  | fuel + 1, st, i =>
    if byteAt st.command i = NUL then st
    else if byteAt st.command i = ' ' then
      parse_args_split fuel
        { command := st.command.set i NUL
          writes := st.writes ++ [(st.arg_index, some st.j)]
          j := i + 1
          arg_index := st.arg_index + 1 } (i + 1)
    else parse_args_split fuel st (i + 1)

/-- What `parse_args` leaves behind: the buffer split in place, the number of
pointer slots it asked `malloc` for, and the stores into `args` in program
order. -/
structure ParsedArgs where
  command : List Char
  slots : Nat
  writes : List (Nat × Option Nat)
deriving DecidableEq, Repr

/-- The function `parse_args` of `interface.c` (lines 137-170). -/
def parse_args (command : List Char) : ParsedArgs :=
  let count := parse_args_count command (command.length + 1) 0 0
  let st := parse_args_split (command.length + 1)
    { command := command, writes := [], j := 0, arg_index := 0 } 0
  { command := st.command
    slots := count + 1
    writes := st.writes ++ [(st.arg_index, some st.j), (st.arg_index + 1, none)] }

/-- The cells of the `args` array in the order they were stored, each pointer
replaced by the C string it points to in the split buffer. -/
def ParsedArgs.cells (r : ParsedArgs) : List (Option (List Char)) :=
  r.writes.map (fun w => w.2.map (cstrAt r.command))

/-! ## Pointers, the history array and `add_command_to_history` -/

/-- A pointer value: `NULL`, an address inside a block obtained from `malloc`, or
the indeterminate content of memory that was never assigned. -/
inductive Ptr where
  | null : Ptr
  | heap (block : Nat) (offset : Nat) : Ptr
  | junk (bits : Nat) : Ptr
deriving DecidableEq, Repr

/-- The C `struct Hist_Entry`. -/
structure Hist_Entry where
  cmd : Ptr
  args : Ptr
deriving DecidableEq, Repr

/-- Ways an execution leaves the defined behaviour of C. -/
inductive Fault where
  | history_index (i : Int)
  | args_unreadable (p : Ptr)
  | args_overrun (p : Ptr)
deriving DecidableEq, Repr

/-- Largest value of a 32-bit `int`. -/
def INT_MAX : Int := 2147483647

/-- Reduction of an integer to the 32-bit two's complement range. -/
def wrap_int (x : Int) : Int := (x + 2147483648) % 4294967296 - 2147483648

/-- The access `hist[i]` to the ten-slot array: a fault when `i` is no index of
the array. -/
def hist_get (hist : List Hist_Entry) (i : Int) : Except Fault Hist_Entry :=
  if i < 0 ∨ (HISTORY_CAPACITY : Int) ≤ i then .error (.history_index i)
  else
    match hist[i.toNat]? with
    | some e => .ok e
    | none => .error (.history_index i)

/-- The loop of `one_hist_ref`: `for (i = 0; i < HISTORY_CAPACITY; i++)
if (i != pos && hist[i].args == hist[pos].args) return 0;`, then `return 1`. -/
def one_hist_ref_loop (hist : List Hist_Entry) (pos : Nat) : Nat → Nat → Bool
  | 0, _ => true
  | fuel + 1, i =>
    if i ≠ pos ∧ (hist[i]?).map Hist_Entry.args = (hist[pos]?).map Hist_Entry.args then false
    else one_hist_ref_loop hist pos fuel (i + 1)

/-- The function `one_hist_ref` of `interface.c` (lines 215-223). -/
def one_hist_ref (hist : List Hist_Entry) (pos : Nat) : Bool :=
  one_hist_ref_loop hist pos HISTORY_CAPACITY 0

/-- Effect of one call of `add_command_to_history`: the array, `*count`, and the
pointers handed to `free`, in order. -/
structure Recorded where
  hist : List Hist_Entry
  count : Int
  released : List Ptr
deriving DecidableEq, Repr

/-- The function `add_command_to_history` of `interface.c` (lines 173-192); the
C operator `%` truncates towards zero. -/
def add_command_to_history (hist : List Hist_Entry) (cmd args : Ptr) (count : Int) :
    Except Fault Recorded :=
  let k := Int.tmod count HISTORY_CAPACITY
  if k < 0 ∨ (HISTORY_CAPACITY : Int) ≤ k then .error (.history_index k)
  else
    let released :=
      if (HISTORY_CAPACITY : Int) ≤ count ∧ one_hist_ref hist k.toNat = true then
        match hist[k.toNat]? with
        | some old => [old.cmd, old.args]
        | none => []
      else []
    .ok { hist := hist.set k.toNat { cmd := cmd, args := args }
          count := wrap_int (count + 1)
          released := released }

/-- A run of calls of `add_command_to_history`, each given its `cmd` and `args`;
the released pointers accumulate. -/
def record_all : List Hist_Entry → Int → List Ptr → List (Ptr × Ptr) → Except Fault Recorded
  | hist, count, fr, [] => .ok { hist := hist, count := count, released := fr }
  | hist, count, fr, c :: rest =>
    match add_command_to_history hist c.1 c.2 count with
    | .error e => .error e
    | .ok r => record_all r.hist r.count (fr ++ r.released) rest

/-- The array `history` as `main` declares it: ten slots that nothing has
assigned yet, holding whatever `garbage` the stack contains. -/
def fresh_history (garbage : Nat → Hist_Entry) : List Hist_Entry :=
  (List.range HISTORY_CAPACITY).map garbage

/-! ## `print_history` -/

/-- Decimal text of an `int`, as `printf("%i")` writes it. -/
def fmt_int (i : Int) : List Char :=
  if i < 0 then '-' :: Nat.toDigits 10 i.natAbs else Nat.toDigits 10 i.toNat

/-- Inner loop of `print_history`, over the cells `args[0]`, `args[1]`, ... of
the array at `p`: `while (args[j] != NULL) { printf("%s ", args[j]); j++; }`.
Running off the cells without meeting `NULL` is a fault. -/
def print_args (p : Ptr) : List (Option (List Char)) → Except Fault (List Char)
  | [] => .error (.args_overrun p)
  | none :: _ => .ok []
  | some a :: rest =>
    match print_args p rest with
    | .error e => .error e
    | .ok out => .ok (a ++ ' ' :: out)

/-- Outer loop of `print_history`, from `i` downwards:
`for (i = count-1; i >= 0 && i >= count - HISTORY_CAPACITY; i--)`. The memory
`mem` gives the cells of the array a pointer refers to, if it refers to one. -/
def print_history_loop (mem : Ptr → Option (List (Option (List Char))))
    (hist : List Hist_Entry) (count : Int) : Nat → Int → Except Fault (List Char)
  | 0, _ => .ok []
  | fuel + 1, i =>
    if 0 ≤ i ∧ count - HISTORY_CAPACITY ≤ i then
      match hist_get hist (Int.tmod i HISTORY_CAPACITY) with
      | .error e => .error e
      | .ok entry =>
        match mem entry.args with
        | none => .error (.args_unreadable entry.args)
        | some cells =>
          match print_args entry.args cells with
          | .error e => .error e
          | .ok words =>
            match print_history_loop mem hist count fuel (i - 1) with
            | .error e => .error e
            | .ok more => .ok (fmt_int i ++ [' ', '|', ' '] ++ words ++ '\n' :: more)
    else .ok []

/-- The function `print_history` of `interface.c` (lines 195-210); the result is
the text written to standard output. The loop body runs at most
`HISTORY_CAPACITY` times, which is the fuel given. -/
def print_history (mem : Ptr → Option (List (Option (List Char))))
    (hist : List Hist_Entry) (count : Int) : Except Fault (List Char) :=
  print_history_loop mem hist count HISTORY_CAPACITY (count - 1)

/-! ## The command loop of `main` -/

/-- The line buffer `cmd` together with the one byte in front of it, which
`cmd[strlen(cmd)-1]` reaches when the string is empty. -/
structure LineBuf where
  before : Char
  bytes : List Char
deriving DecidableEq, Repr

/-- The C library function `strlen`. -/
def strlen (bytes : List Char) : Nat := (cstrAt bytes 0).length

/-- The read `cmd[i]`. -/
def LineBuf.get (b : LineBuf) (i : Int) : Char :=
  if i < 0 then b.before else byteAt b.bytes i.toNat

/-- The store `cmd[i] = c`; a store in front of `cmd[-1]` changes no byte that is
read afterwards. -/
def LineBuf.put (b : LineBuf) (i : Int) (c : Char) : LineBuf :=
  if i = -1 then { b with before := c }
  else if i < -1 then b
  else { b with bytes := b.bytes.set i.toNat c }

/-- The line after lines 62-72 of `main`, and `should_wait`. -/
structure Prepared where
  buf : LineBuf
  should_wait : Int
deriving DecidableEq, Repr

/-- Lines 62-64 of `main`:
`if (cmd[strlen(cmd)-1] == '\\n') cmd[strlen(cmd)-1] = '\\0';`. -/
def strip_newline (b : LineBuf) : LineBuf :=
  if b.get ((strlen b.bytes : Int) - 1) = '\n' then b.put ((strlen b.bytes : Int) - 1) NUL
  else b

/-- Lines 52 and 66-72 of `main`: `should_wait` starts at 1; when the last
character is an ampersand it becomes 0 and `cmd[strlen(cmd)-2] = '\\0'`. -/
def strip_ampersand (b : LineBuf) : Prepared :=
  if b.get ((strlen b.bytes : Int) - 1) = '&'
  then { buf := b.put ((strlen b.bytes : Int) - 2) NUL, should_wait := 0 }
  else { buf := b, should_wait := 1 }

/-- Lines 52 and 62-72 of `main`: removal of the trailing newline, then
detection and removal of the trailing ampersand. -/
def preprocess (b : LineBuf) : Prepared := strip_ampersand (strip_newline b)

/-- The C library predicate `isspace` in the C locale. -/
def isspace (c : Char) : Bool :=
  c = ' ' ∨ c = '\t' ∨ c = '\n' ∨ c = Char.ofNat 11 ∨ c = Char.ofNat 12 ∨ c = '\r'

/-- The digit loop of `atoi`. -/
def atoi_digits : List Char → Int → Int
  | [], acc => acc
  | c :: cs, acc => if c.isDigit then atoi_digits cs (10 * acc + (c.toNat - 48 : Int)) else acc

/-- The number a numeral denotes for `strtol`: blanks, an optional sign, then
the run of decimal digits, as a mathematical integer. -/
def strtol_value (s : List Char) : Int :=
  match s.dropWhile isspace with
  | '-' :: cs => - atoi_digits cs 0
  | '+' :: cs => atoi_digits cs 0
  | cs => atoi_digits cs 0

/-- Largest value of a 64-bit `long`. -/
def LONG_MAX : Int := 9223372036854775807

/-- The C library function `strtol(s, NULL, 10)` with a 64-bit `long`: a value
out of range is replaced by `LONG_MAX` or `LONG_MIN`. -/
def strtol (s : List Char) : Int :=
  if strtol_value s > LONG_MAX then LONG_MAX
  else if strtol_value s < -LONG_MAX - 1 then -LONG_MAX - 1
  else strtol_value s

/-- The C library function `atoi` as the C library of the platform defines it,
`(int) strtol(s, NULL, 10)`: the `long` is cut down to the 32 bits of an `int`. -/
def atoi (s : List Char) : Int := wrap_int (strtol s)

/-- The pointer `p + 1`. -/
def Ptr.succ : Ptr → Ptr
  | .heap b o => .heap b (o + 1)
  | p => p

/-- The variables of `main` that survive an iteration of the loop, and the heap:
the `args` arrays built so far (by block) and every pointer passed to `free`.
`malloc` hands out block `next_block`, then `next_block + 1`, and so on. -/
structure Shell where
  history : List Hist_Entry
  command_count : Int
  cmd : Ptr
  next_block : Nat
  arrays : List (Nat × ParsedArgs)
  freed : List Ptr
deriving DecidableEq, Repr

/-- What one iteration takes from outside: the byte in front of the line
buffer, the string `fgets` stored in `cmd` (at most `MAX_LINE - 1` characters,
a newline only as the last one), and whether `fork` succeeds. -/
structure Input where
  before : Char
  line : List Char
  fork_ok : Bool
deriving DecidableEq, Repr

/-- What one iteration does besides changing the variables: it ends the loop,
prints the history, leaves `main` with status 1, or has a child run
`execvp(args[0], args)` and waits for it when `should_wait` is not 0. -/
inductive Outcome where
  | quit : Outcome
  | printed (out : List Char) : Outcome
  | fork_failed : Outcome
  | dispatched (args : Ptr) (should_wait : Int) : Outcome
deriving DecidableEq, Repr

/-- The state in which `main` enters its loop. -/
def Shell.init (garbage : Nat → Hist_Entry) : Shell :=
  { history := fresh_history garbage
    command_count := 0
    cmd := .heap 0 0
    next_block := 1
    arrays := []
    freed := [] }

/-- The cells of the `args` array a pointer refers to: the pointer has to be the
start of an array built by `parse_args` that has not been freed. -/
def Shell.mem (s : Shell) (p : Ptr) : Option (List (Option (List Char))) :=
  match p with
  | .heap b 0 => if p ∈ s.freed then none else (s.arrays.lookup b).map ParsedArgs.cells
  | _ => none

/-- Values of `cmd` and `args` after lines 86-105 of `main`. -/
structure Resolved where
  cmd : Ptr
  args : Ptr
  next_block : Nat
  arrays : List (Nat × ParsedArgs)
deriving DecidableEq, Repr

/-- Lines 86-105 of `main`: `args` is taken from the history for `!!` and `!N`,
stays `NULL` for any other line starting with `!`, and is built by `parse_args`
otherwise. In `command_count-1 % HISTORY_CAPACITY` the operator `%` binds
tighter than `-`. -/
def resolve (s : Shell) (cmd : List Char) : Except Fault Resolved :=
  if byteAt cmd 0 = '!' then
    if byteAt cmd 1 = '!' then
      match hist_get s.history (wrap_int (s.command_count - Int.tmod 1 HISTORY_CAPACITY)) with
      | .error e => .error e
      | .ok entry =>
        .ok { cmd := s.cmd, args := entry.args, next_block := s.next_block, arrays := s.arrays }
    else if (byteAt cmd 1).isDigit then
      let command_to_run := atoi (cstrAt cmd 1)
      match hist_get s.history (Int.tmod command_to_run HISTORY_CAPACITY) with
      | .error e => .error e
      | .ok entry =>
        .ok { cmd := s.cmd.succ, args := entry.args, next_block := s.next_block,
              arrays := s.arrays }
    else .ok { cmd := s.cmd, args := .null, next_block := s.next_block, arrays := s.arrays }
  else
    .ok { cmd := s.cmd, args := .heap s.next_block 0, next_block := s.next_block + 1,
          arrays := (s.next_block, parse_args cmd) :: s.arrays }

/-- The word `history`, second operand of `strcmp` on line 80. -/
def history_word : List Char := ['h', 'i', 's', 't', 'o', 'r', 'y']

/-- Lines 74-129 of `main`: what the loop does with the prepared line `cmd` and
`should_wait`, in the parent process. -/
def main_dispatch (s : Shell) (cmd : List Char) (should_wait : Int) (fork_ok : Bool) :
    Except Fault (Shell × Outcome) :=
  if byteAt cmd 0 = 'q' then .ok (s, .quit)
  else if cstrAt cmd 0 = history_word then
    match print_history s.mem s.history s.command_count with
    | .error e => .error e
    | .ok out => .ok (s, .printed out)
  else
    match resolve s cmd with
    | .error e => .error e
    | .ok r =>
      if fork_ok = false then
        .ok ({ s with next_block := r.next_block, arrays := r.arrays }, .fork_failed)
      else
        match add_command_to_history s.history r.cmd r.args s.command_count with
        | .error e => .error e
        | .ok rec =>
          .ok ({ history := rec.hist
                 command_count := rec.count
                 cmd := .heap r.next_block 0
                 next_block := r.next_block + 1
                 arrays := r.arrays
                 freed := s.freed ++ rec.released },
               .dispatched r.args should_wait)

/-- One iteration of the `while (should_run)` loop of `main` (lines 50-130):
`fgets` has stored the line and its terminator in `cmd`. -/
def main_iteration (s : Shell) (inp : Input) : Except Fault (Shell × Outcome) :=
  let p := preprocess { before := inp.before, bytes := inp.line ++ [NUL] }
  main_dispatch s p.buf.bytes p.should_wait inp.fork_ok

/-- Whether the loop ends after an iteration with this outcome: `should_run = 0`
after `q`, `return 1` after a failed `fork`. -/
def Outcome.stops : Outcome → Bool
  | .quit => true
  | .fork_failed => true
  | _ => false

/-- After an iteration: a fault is final, a stopping outcome ends the loop, any
other outcome leads to the next iteration `next`. -/
def run_next (res : Except Fault (Shell × Outcome)) (next : Shell → Except Fault Shell) :
    Except Fault Shell :=
  match res with
  | .error e => .error e
  | .ok r => if r.2.stops = true then .ok r.1 else next r.1

/-- The loop of `main` over the lines read. -/
def run : Shell → List Input → Except Fault Shell
  | s, [] => .ok s
  | s, inp :: rest => run_next (main_iteration s inp) (fun s1 => run s1 rest)

/-- The line `print_history` is to write for sequence number `i` with the
arguments `words`: the number, ` | `, every argument followed by a space, and
the newline. -/
def history_line (i : Nat) (words : List (List Char)) : List Char :=
  Nat.toDigits 10 i ++ [' ', '|', ' '] ++ (words.map (fun a => a ++ [' '])).flatten ++ ['\n']

/-! ## Sample data for the concrete runs -/

/-- A content for the unassigned history slots. -/
def sample_garbage : Nat → Hist_Entry :=
  fun k => { cmd := .junk (2 * k), args := .junk (2 * k + 1) }

/-- The input of an iteration for a typed line: the text and its newline, a
zero byte in front of the buffer, `fork` succeeding. -/
def typed (text : List Char) : Input :=
  { before := NUL, line := text ++ ['\n'], fork_ok := true }

/-- The lines `c0`, `c1`, ..., one fresh command each. -/
def fresh_lines (n : Nat) : List Input :=
  (List.range n).map (fun k => typed ('c' :: Nat.toDigits 10 k))

/-- The shell after the given iterations, from the initial state with
`sample_garbage` (the initial state again if the run faults). -/
def shell_after (lines : List Input) : Shell :=
  match run (Shell.init sample_garbage) lines with
  | .ok s => s
  | .error _ => Shell.init sample_garbage

/-- The arguments of the fresh command number `i`: the one word `c<i>`. -/
def sample_words (i : Nat) : List (List Char) := ['c' :: Nat.toDigits 10 i]

/-- Twelve calls of `add_command_to_history`, with distinct blocks. -/
def sample_calls : List (Ptr × Ptr) :=
  (List.range 12).map (fun k => (Ptr.heap (2 * k) 0, Ptr.heap (2 * k + 1) 0))

/-! ### Auxiliary descriptions of the two loops, used in the proofs -/

/-- The byte the second loop leaves where it found `c`. -/
def blank (c : Char) : Char := if c = ' ' then NUL else c

/-- Field start offsets: the start `j` of the field being scanned at offset `i`,
and one more start after every space of the remaining text. -/
def fieldStarts : Nat → Nat → List Char → List Nat
  | _, j, [] => [j]
  | i, j, c :: cs =>
    if c = ' ' then j :: fieldStarts (i + 1) (i + 1) cs else fieldStarts (i + 1) j cs

/-- Stores of the given pointers at consecutive indexes from `a`, then `NULL`. -/
def logFrom : Nat → List Nat → List (Nat × Option Nat)
  | a, [] => [(a, none)]
  | a, o :: os => (a, some o) :: logFrom (a + 1) os

/-! ## Accesses to the line buffer -/

/-- The indexes at which lines 62-64 of `main` access `cmd`: the read
`cmd[strlen(cmd)-1]` and, when it finds the newline, the store at the same
index. -/
def strip_newline_accesses (b : LineBuf) : List Int :=
  if b.get ((strlen b.bytes : Int) - 1) = '\n'
  then [(strlen b.bytes : Int) - 1, (strlen b.bytes : Int) - 1]
  else [(strlen b.bytes : Int) - 1]

/-- The indexes at which lines 66-72 of `main` access `cmd`: the read
`cmd[strlen(cmd)-1]` and, when it finds the ampersand, the store
`cmd[strlen(cmd)-2] = '\\0'`. -/
def strip_ampersand_accesses (b : LineBuf) : List Int :=
  if b.get ((strlen b.bytes : Int) - 1) = '&'
  then [(strlen b.bytes : Int) - 1, (strlen b.bytes : Int) - 2]
  else [(strlen b.bytes : Int) - 1]

/-- The indexes at which lines 62-72 of `main` access `cmd`, in program order. -/
def preprocess_accesses (b : LineBuf) : List Int :=
  strip_newline_accesses b ++ strip_ampersand_accesses (strip_newline b)

/-- Whether an index lies in the block `malloc(sizeof(char)*(MAX_LINE+1))`. -/
def in_line_buffer (i : Int) : Prop := 0 ≤ i ∧ i < (MAX_LINE : Int) + 1

end Osh

/-! # The factorial program (`ProgrammingAssignment1/fact.c`) -/

namespace Fact

/-- The function `factorial` of `fact.c` (line 42-45), `int` arithmetic wrapped to
32 bits: `return (n == 0) ? 1 : n * factorial(n - 1);`. The fuel bounds the depth
of the recursion; for a negative `n` the recursion runs through the whole range
of `int` before it meets 0, more than 2^31 calls deep. -/
def factorial : Nat → Int → Option Int
  | 0, _ => none
  | fuel + 1, n =>
    if n = 0 then some 1
    else (factorial fuel (Osh.wrap_int (n - 1))).map (fun f => Osh.wrap_int (n * f))

/-- The loop of `isPosInt`: `for (i = 0; input[i] != 0; i++)
if (!isdigit(input[i])) return 0;`, then `return 1`. -/
def isPosInt_loop (input : List Char) : Nat → Nat → Bool
  | 0, _ => true
  | fuel + 1, i =>
    if Osh.byteAt input i = Osh.NUL then true
    else if (Osh.byteAt input i).isDigit = false then false
    else isPosInt_loop input fuel (i + 1)

/-- The function `isPosInt` of `fact.c` (lines 48-57) on a buffer. -/
def isPosInt (input : List Char) : Bool := isPosInt_loop input (input.length + 1) 0

/-- The function `main` of `fact.c` (lines 20-39): `argv` lists the C strings of
the command line, the program name first; the result is the text printed.
The recursion of `factorial` is given the `num + 1` calls it needs for every
`num` from 0 up; for a negative `num` that depth is not enough and nothing is
printed. -/
def fact_main (argv : List (List Char)) : Option (List Char) :=
  match argv with
  | [_, arg] =>
    if isPosInt (arg ++ [Osh.NUL]) = true then
      let num := Osh.atoi arg
      if num ≤ 12 then
        (factorial (num.toNat + 1) num).map (fun f => Osh.fmt_int f ++ ['\n'])
      else some "Overflow\n".toList
    else some "Huh?\n".toList
  | _ => some "Huh?\n".toList

/-- The decimal notations of the positive integers: one digit or more, not all
of them `0`. -/
def is_positive_decimal (s : List Char) : Prop :=
  s ≠ [] ∧ (∀ c ∈ s, c.isDigit = true) ∧ ∃ c ∈ s, c ≠ '0'

end Fact

/-! # The page-replacement simulator (`ProgrammingAssignment4/pager.c`) -/

namespace Pager

/-- Length of the reference string, `#define PAGE_REF_STRING_LENGTH 20`. -/
def PAGE_REF_STRING_LENGTH : Nat := 20

/-- The function `init_frame_table`: every frame is set to -1. -/
def init_frame_table (size : Nat) : List Int := List.replicate size (-1)

/-- The function `in_arr` over the `size` elements of `arr`. -/
def in_arr : List Int → Int → Bool
  | [], _ => false
  | a :: rest, val => if a = val then true else in_arr rest val

/-- The loop of `find_max_pos`: `for (i = 1; i < size; i++)
if (arr[i] > arr[max_pos]) max_pos = i;`. A cell of `arr` that was never
assigned is `none`; comparing it gives no result. -/
def find_max_pos_loop (arr : List (Option Int)) : Nat → Nat → Nat → Option Nat
  | 0, _, max_pos => some max_pos
  | fuel + 1, i, max_pos =>
    match arr.getD i none, arr.getD max_pos none with
    | some a, some m =>
      if a > m then find_max_pos_loop arr fuel (i + 1) i
      else find_max_pos_loop arr fuel (i + 1) max_pos
    | _, _ => none

/-- The function `find_max_pos` of `pager.c` (lines 217-226). -/
def find_max_pos (arr : List (Option Int)) (size : Nat) : Option Nat :=
  find_max_pos_loop arr (size - 1) 1 0

/-- Inner loop of `find_most_distant_pos` for one resident page: `j` runs from
`pos` up to `PAGE_REF_STRING_LENGTH - 1` and the first match assigns
`distances[i] = j - pos`; without a match nothing is assigned. -/
def distance_ahead (page_ref_str : List Int) (page : Int) (pos : Nat) : Nat → Nat → Option Int
  | 0, _ => none
  | fuel + 1, j =>
    if page_ref_str[j]? = some page then some ((j : Int) - (pos : Int))
    else distance_ahead page_ref_str page pos fuel (j + 1)

/-- The array `distances` at the end of the loop of `find_most_distant_pos`. -/
def most_distant_distances (page_ref_str frames : List Int) (pos : Nat) : List (Option Int) :=
  frames.map (fun f =>
    if f = -1 then some ((PAGE_REF_STRING_LENGTH : Int) + 1)
    else distance_ahead page_ref_str f pos (PAGE_REF_STRING_LENGTH - pos) pos)

/-- The function `find_most_distant_pos` of `pager.c` (lines 190-214). -/
def find_most_distant_pos (page_ref_str frames : List Int) (num_frames pos : Nat) : Option Nat :=
  find_max_pos (most_distant_distances page_ref_str frames pos) num_frames

/-- A page fault, as the simulator reports it: the position in the reference
string, the frame table before the replacement and the frame replaced. -/
structure Fault where
  pos : Nat
  frames : List Int
  victim : Nat
deriving DecidableEq, Repr

/-- What a run of one of the three algorithms leaves: the counter `num_faults`
and the page faults reported, in order. -/
structure Run where
  num_faults : Nat
  faults : List Fault
deriving DecidableEq, Repr

/-- The loop of `LRU` and of `OPT_MIN` from position `i` on; `choose` is
`find_least_recent_pos` or `find_most_distant_pos`. -/
def replace_loop (choose : List Int → List Int → Nat → Nat → Option Nat)
    (page_ref_str : List Int) (num_frames : Nat) :
    Nat → Nat → List Int → Run → Option Run
  | 0, _, _, run => some run
  | fuel + 1, i, frames, run =>
    match page_ref_str[i]? with
    | none => none
    | some page =>
      if in_arr frames page = false then
        match choose page_ref_str frames num_frames i with
        | none => none
        | some victim =>
          replace_loop choose page_ref_str num_frames fuel (i + 1) (frames.set victim page)
            { num_faults := run.num_faults + 1
              faults := run.faults ++ [{ pos := i, frames := frames, victim := victim }] }
      else replace_loop choose page_ref_str num_frames fuel (i + 1) frames run

/-- The body of `OPT_MIN` of `pager.c` (lines 131-160) with the faults it
reports. -/
def OPT_MIN_run (page_ref_str : List Int) (num_frames : Nat) : Option Run :=
  replace_loop find_most_distant_pos page_ref_str num_frames PAGE_REF_STRING_LENGTH 0
    (init_frame_table num_frames) { num_faults := 0, faults := [] }

/-- The function `OPT_MIN` of `pager.c` (lines 131-160): it returns
`num_faults`. -/
def OPT_MIN (page_ref_str : List Int) (num_frames : Nat) : Option Nat :=
  (OPT_MIN_run page_ref_str num_frames).map Run.num_faults

/-- A reference string on which page 0 is referenced at the positions 0 and 2
only. -/
def opt_refs : List Int := [0, 1, 0, 2, 2, 1, 1, 1, 1, 1, 1, 1, 1, 1, 1, 1, 1, 1, 1, 1]

end Pager

namespace Osh

/-! ## Theorems -/

theorem byteAt_append (pre rest : List Char) (c : Char) :
    byteAt (pre ++ c :: rest) pre.length = c := by
  induction pre with
  | nil => rfl
  | cons p ps ih => simpa [byteAt] using ih

theorem set_append_self (pre rest : List Char) (c d : Char) :
    (pre ++ c :: rest).set pre.length d = pre ++ d :: rest := by
  induction pre with
  | nil => rfl
  | cons p ps ih => simp [ih]

theorem takeWhile_stop (xs tail : List Char) (h : NUL ∉ xs) :
    (xs ++ NUL :: tail).takeWhile (fun c => decide (c ≠ NUL)) = xs := by
  induction xs with
  | nil => simp [List.takeWhile]
  | cons x xs ih =>
    have hx : x ≠ NUL := fun e => h (e ▸ List.mem_cons_self _ _)
    have hxs : NUL ∉ xs := fun m => h (List.mem_cons_of_mem _ m)
    have ih2 := ih hxs
    simp only [List.cons_append, List.takeWhile_cons, hx, ne_eq, not_false_eq_true,
      decide_True, if_true, ih2]

theorem cstrAt_append (pre mid tail : List Char) (j : Nat) (hj : j ≤ pre.length)
    (h : NUL ∉ pre.drop j ++ mid) :
    cstrAt (pre ++ mid ++ NUL :: tail) j = pre.drop j ++ mid := by
  unfold cstrAt
  have : (pre ++ mid ++ NUL :: tail).drop j = (pre.drop j ++ mid) ++ NUL :: tail := by
    rw [List.append_assoc, List.drop_append_of_le_length hj, List.append_assoc]
  rw [this]
  exact takeWhile_stop _ _ h

theorem parse_args_count_spec (rest : List Char) :
    ∀ (pre tail : List Char) (fuel count : Nat), NUL ∉ rest → rest.length < fuel →
      parse_args_count (pre ++ rest ++ NUL :: tail) fuel pre.length count
        = count + rest.count ' ' := by
  induction rest with
  | nil =>
    intro pre tail fuel count _ hf
    obtain ⟨f, rfl⟩ : ∃ f, fuel = f + 1 := ⟨fuel - 1, by simp at hf; omega⟩
    simp [parse_args_count, byteAt_append]
  | cons c cs ih =>
    intro pre tail fuel count hn hf
    obtain ⟨f, rfl⟩ : ∃ f, fuel = f + 1 := ⟨fuel - 1, by simp at hf; omega⟩
    have hc : c ≠ NUL := fun e => hn (e ▸ List.mem_cons_self _ _)
    have hcs : NUL ∉ cs := fun m => hn (List.mem_cons_of_mem _ m)
    have hlen : cs.length < f := by simp at hf; omega
    have e1 : pre ++ c :: cs ++ NUL :: tail = pre ++ c :: (cs ++ NUL :: tail) := by simp
    have e2 : pre ++ c :: (cs ++ NUL :: tail) = (pre ++ [c]) ++ cs ++ NUL :: tail := by simp
    have hb : byteAt (pre ++ c :: cs ++ NUL :: tail) pre.length = c := by
      rw [e1]; exact byteAt_append _ _ _
    have hl : pre.length + 1 = (pre ++ [c]).length := by simp
    rw [parse_args_count, hb, if_neg hc]
    by_cases hs : c = ' '
    · rw [if_pos hs, e1, e2, hl, ih _ _ _ _ hcs hlen]
      simp [hs, List.count_cons]; omega
    · rw [if_neg hs, e1, e2, hl, ih _ _ _ _ hcs hlen]
      have : (c == ' ') = false := by simpa using hs
      simp [List.count_cons, this]

theorem parse_args_split_spec (rest : List Char) :
    ∀ (pre tail : List Char) (w : List (Nat × Option Nat)) (j a fuel : Nat),
      NUL ∉ rest → rest.length < fuel →
      ∃ st, parse_args_split fuel
          { command := pre ++ rest ++ NUL :: tail, writes := w, j := j, arg_index := a }
          pre.length = st ∧
        st.command = pre ++ rest.map blank ++ NUL :: tail ∧
        st.writes ++ [(st.arg_index, some st.j), (st.arg_index + 1, none)]
          = w ++ logFrom a (fieldStarts pre.length j rest) := by
  induction rest with
  | nil =>
    intro pre tail w j a fuel _ hf
    obtain ⟨f, rfl⟩ : ∃ f, fuel = f + 1 := ⟨fuel - 1, by simp at hf; omega⟩
    refine ⟨_, rfl, ?_, ?_⟩ <;>
      simp [parse_args_split, byteAt_append, fieldStarts, logFrom]
  | cons c cs ih =>
    intro pre tail w j a fuel hn hf
    obtain ⟨f, rfl⟩ : ∃ f, fuel = f + 1 := ⟨fuel - 1, by simp at hf; omega⟩
    have hc : c ≠ NUL := fun e => hn (e ▸ List.mem_cons_self _ _)
    have hcs : NUL ∉ cs := fun m => hn (List.mem_cons_of_mem _ m)
    have hlen : cs.length < f := by simp at hf; omega
    have e1 : pre ++ c :: cs ++ NUL :: tail = pre ++ c :: (cs ++ NUL :: tail) := by simp
    have hb : byteAt (pre ++ c :: cs ++ NUL :: tail) pre.length = c := by
      rw [e1]; exact byteAt_append _ _ _
    by_cases hs : c = ' '
    · have e2 : (pre ++ c :: cs ++ NUL :: tail).set pre.length NUL
          = (pre ++ [NUL]) ++ cs ++ NUL :: tail := by
        rw [e1, set_append_self]; simp
      have hl : pre.length + 1 = (pre ++ [NUL]).length := by simp
      obtain ⟨st, h1, h2, h3⟩ := ih (pre ++ [NUL]) tail (w ++ [(a, some j)])
        (pre.length + 1) (a + 1) f hcs hlen
      refine ⟨st, ?_, ?_, ?_⟩
      · rw [← h1, parse_args_split]
        simp only [hb, if_neg hc, if_pos hs, e2, ← hl]
      · rw [h2]; simp [blank, hs]
      · rw [h3]; simp [fieldStarts, logFrom, hs]
    · have e2 : pre ++ c :: cs ++ NUL :: tail = (pre ++ [c]) ++ cs ++ NUL :: tail := by simp
      have hl : pre.length + 1 = (pre ++ [c]).length := by simp
      obtain ⟨st, h1, h2, h3⟩ := ih (pre ++ [c]) tail w j a f hcs hlen
      refine ⟨st, ?_, ?_, ?_⟩
      · rw [← h1, parse_args_split]
        simp only [hb, if_neg hc, if_neg hs, ← hl, ← e2]
      · rw [h2]; simp [blank, hs]
      · rw [h3]; simp [fieldStarts, hs]

theorem splitOn_space_cons (c : Char) (cs : List Char) :
    (c :: cs).splitOn ' ' =
      if c = ' ' then [] :: cs.splitOn ' ' else (cs.splitOn ' ').modifyHead (List.cons c) := by
  unfold List.splitOn
  rw [List.splitOnP_cons]
  by_cases h : c = ' ' <;> simp [h]

theorem fieldStarts_read (rest : List Char) :
    ∀ (pre tail : List Char) (j : Nat), NUL ∉ rest → j ≤ pre.length → NUL ∉ pre.drop j →
      (fieldStarts pre.length j rest).map (cstrAt (pre ++ rest.map blank ++ NUL :: tail))
        = (rest.splitOn ' ').modifyHead (fun f => pre.drop j ++ f) := by
  induction rest with
  | nil =>
    intro pre tail j _ hj hp
    have := cstrAt_append pre [] tail j hj (by simpa using hp)
    simpa [fieldStarts, List.splitOn_nil, List.modifyHead] using this
  | cons c cs ih =>
    intro pre tail j hn hj hp
    have hc : c ≠ NUL := fun e => hn (e ▸ List.mem_cons_self _ _)
    have hcs : NUL ∉ cs := fun m => hn (List.mem_cons_of_mem _ m)
    by_cases hs : c = ' '
    · have e : pre ++ blank c :: cs.map blank ++ NUL :: tail
          = (pre ++ [NUL]) ++ cs.map blank ++ NUL :: tail := by simp [blank, hs]
      have e0 : pre ++ blank c :: cs.map blank ++ NUL :: tail
          = pre ++ [] ++ NUL :: (cs.map blank ++ NUL :: tail) := by simp [blank, hs]
      have h0 := cstrAt_append pre [] (cs.map blank ++ NUL :: tail) j hj (by simpa using hp)
      have ih2 := ih (pre ++ [NUL]) tail (pre.length + 1) hcs (by simp) (by simp)
      rw [show (pre ++ [NUL]).length = pre.length + 1 by simp,
        show (pre ++ [NUL]).drop (pre.length + 1) = [] by simp] at ih2
      rw [splitOn_space_cons, if_pos hs]
      simp only [fieldStarts, if_pos hs, List.map_cons, List.modifyHead]
      congr 1
      · rw [e0, h0]
      · rw [e, ih2]
        cases hsp : cs.splitOn ' ' with
        | nil => rfl
        | cons f fs => simp [List.modifyHead]
    · have e : pre ++ blank c :: cs.map blank ++ NUL :: tail
          = (pre ++ [c]) ++ cs.map blank ++ NUL :: tail := by simp [blank, hs]
      have hd : (pre ++ [c]).drop j = pre.drop j ++ [c] := List.drop_append_of_le_length hj
      have ih2 := ih (pre ++ [c]) tail j hcs (by simp; omega)
        (by rw [hd]; simp; exact ⟨by simpa using hp, fun e => hc e.symm⟩)
      rw [show (pre ++ [c]).length = pre.length + 1 by simp, hd] at ih2
      rw [splitOn_space_cons, if_neg hs]
      simp only [fieldStarts, if_neg hs, List.map_cons]
      rw [e, ih2]
      cases hsp : cs.splitOn ' ' with
      | nil => rfl
      | cons f fs => simp [List.modifyHead]

theorem logFrom_fst (os : List Nat) : ∀ a : Nat,
    (logFrom a os).map Prod.fst = (List.range (os.length + 1)).map (fun k => a + k) := by
  induction os with
  | nil => intro a; simp [logFrom, List.range_succ]
  | cons o os ih =>
    intro a
    rw [logFrom, List.map_cons, ih (a + 1), List.length_cons, List.range_succ_eq_map (os.length + 1)]
    simp [Function.comp_def]; intros; omega

theorem logFrom_snd (os : List Nat) (f : Nat → List Char) : ∀ a : Nat,
    (logFrom a os).map (fun w => w.2.map f) = (os.map f).map some ++ [none] := by
  induction os with
  | nil => intro a; simp [logFrom]
  | cons o os ih => intro a; simp [logFrom, ih (a + 1)]

theorem splitOn_space_length (s : List Char) : (s.splitOn ' ').length = s.count ' ' + 1 := by
  induction s with
  | nil => simp [List.splitOn_nil]
  | cons c cs ih =>
    rw [splitOn_space_cons]
    by_cases hs : c = ' '
    · simp [hs, ih]
    · have : (c == ' ') = false := by simpa using hs
      simp [hs, ih, List.count_cons, this]

/-- C1: for a command line `s` without NUL, stored in a buffer as `s`, the
terminator and any further bytes, `parse_args` stores into `args[0]`, `args[1]`,
... exactly (number of spaces in `s`) + 1 pointers and then `NULL`; the pointers
point, in order, to the fields obtained by cutting `s` at every single space,
empty fields kept. -/
theorem parse_args_fields (s tail : List Char) (h : NUL ∉ s) :
    (parse_args (s ++ NUL :: tail)).writes.map Prod.fst = List.range (s.count ' ' + 2) ∧
    (parse_args (s ++ NUL :: tail)).cells = (s.splitOn ' ').map some ++ [none] ∧
    (s.splitOn ' ').length = s.count ' ' + 1 := by
  have hf : s.length < (s ++ NUL :: tail).length + 1 := by simp; omega
  obtain ⟨st, h1, h2, h3⟩ := parse_args_split_spec s [] tail [] 0 0 _ h hf
  have hr := fieldStarts_read s [] tail 0 h (Nat.le_refl _) (by simp)
  simp only [List.nil_append, List.length_nil, List.drop_nil] at h1 h2 h3 hr
  have hlen : (fieldStarts 0 0 s).length = s.count ' ' + 1 := by
    have := congrArg List.length hr
    rw [List.length_map] at this
    rw [this, ← splitOn_space_length s]
    cases s.splitOn ' ' <;> simp [List.modifyHead]
  have hm : (s.splitOn ' ').modifyHead (fun f => f) = s.splitOn ' ' := by
    cases s.splitOn ' ' <;> simp [List.modifyHead]
  refine ⟨?_, ?_, splitOn_space_length s⟩
  · simp only [parse_args, h1, h3, logFrom_fst, hlen]
    simp
  · simp only [ParsedArgs.cells, parse_args, h1, h3, h2, logFrom_snd, hr, hm]

/-- C1, the example of the specification: `"ls -la /tmp"` gives `ls`, `-la`,
`/tmp` and the sentinel. -/
theorem parse_args_fields_witness :
    NUL ∉ "ls -la /tmp".toList ∧
    (parse_args ("ls -la /tmp".toList ++ [NUL])).cells
      = ["ls".toList, "-la".toList, "/tmp".toList].map some ++ [none] :=
  ⟨by decide, (parse_args_fields "ls -la /tmp".toList [] (by decide)).2.1.trans (by decide)⟩

/-! ### The circular buffer -/

theorem tmod_capacity (n : Nat) :
    Int.tmod (n : Int) (HISTORY_CAPACITY : Int) = ((n % 10 : Nat) : Int) := rfl

theorem wrap_int_succ (n : Nat) (hn : (n : Int) < INT_MAX) :
    wrap_int ((n : Int) + 1) = ((n + 1 : Nat) : Int) := by
  unfold wrap_int
  unfold INT_MAX at hn
  omega

theorem add_command_to_history_nat (hist : List Hist_Entry) (cmd args : Ptr) (n : Nat)
    (hn : (n : Int) < INT_MAX) :
    add_command_to_history hist cmd args n
      = .ok { hist := hist.set (n % 10) { cmd := cmd, args := args }
              count := ((n + 1 : Nat) : Int)
              released :=
                if (HISTORY_CAPACITY : Int) ≤ (n : Int) ∧ one_hist_ref hist (n % 10) = true then
                  match hist[n % 10]? with
                  | some old => [old.cmd, old.args]
                  | none => []
                else [] } := by
  have hk : ¬ ((((n % 10 : Nat) : Int) < 0) ∨ (HISTORY_CAPACITY : Int) ≤ ((n % 10 : Nat) : Int)) := by
    unfold HISTORY_CAPACITY; omega
  unfold add_command_to_history
  simp only [tmod_capacity, if_neg hk, Int.toNat_ofNat, wrap_int_succ n hn]

theorem record_all_snoc (calls : List (Ptr × Ptr)) (x : Ptr × Ptr) :
    ∀ (hist : List Hist_Entry) (count : Int) (fr : List Ptr),
      record_all hist count fr (calls ++ [x]) =
        match record_all hist count fr calls with
        | .error e => .error e
        | .ok r =>
          match add_command_to_history r.hist x.1 x.2 r.count with
          | .error e => .error e
          | .ok r2 => .ok { hist := r2.hist, count := r2.count,
                            released := r.released ++ r2.released } := by
  induction calls with
  | nil =>
    intro hist count fr
    simp only [List.nil_append, record_all]
  | cons c cs ih =>
    intro hist count fr
    simp only [List.cons_append, record_all]
    cases add_command_to_history hist c.1 c.2 count with
    | error e => rfl
    | ok r => exact ih _ _ _

theorem record_all_spec (h0 : List Hist_Entry) (hlen : h0.length = 10)
    (calls : List (Ptr × Ptr)) :
    (calls.length : Int) ≤ INT_MAX →
    ∃ r, record_all h0 0 [] calls = .ok r ∧ r.count = (calls.length : Int) ∧
      r.hist.length = 10 ∧
      (∀ i, i < calls.length → calls.length ≤ i + 10 →
        r.hist[i % 10]? = (calls[i]?).map (fun c => { cmd := c.1, args := c.2 })) ∧
      (∀ k, calls.length ≤ k → r.hist[k]? = h0[k]?) := by
  induction calls using List.reverseRecOn with
  | nil =>
    intro _
    exact ⟨_, rfl, rfl, hlen, fun i hi => absurd hi (Nat.not_lt_zero _), fun k _ => rfl⟩
  | append_singleton calls x ih =>
    intro hn
    have hn1 : (calls.length : Int) < INT_MAX := by
      simp only [List.length_append, List.length_singleton] at hn
      omega
    obtain ⟨r, hr, hc, hl, hw, hu⟩ := ih (by omega)
    have hadd := add_command_to_history_nat r.hist x.1 x.2 calls.length hn1
    generalize (if (HISTORY_CAPACITY : Int) ≤ (calls.length : Int) ∧
        one_hist_ref r.hist (calls.length % 10) = true then
          (match r.hist[calls.length % 10]? with
            | some old => [old.cmd, old.args]
            | none => [])
        else []) = fr at hadd
    refine ⟨{ hist := r.hist.set (calls.length % 10) { cmd := x.1, args := x.2 }
              count := ((calls.length + 1 : Nat) : Int)
              released := r.released ++ fr }, ?_, ?_, ?_, ?_, ?_⟩
    · rw [record_all_snoc, hr]
      simp only [hc, hadd]
    · simp
    · simp [hl]
    · intro i hi hi10
      simp only [List.length_append, List.length_singleton] at hi hi10
      by_cases hin : i = calls.length
      · subst hin
        have : calls.length % 10 < r.hist.length := by rw [hl]; omega
        simp [List.getElem?_set_self this]
      · have hi2 : i < calls.length := by omega
        have hne : calls.length % 10 ≠ i % 10 := by omega
        simp only [List.getElem?_set_ne hne]
        rw [hw i hi2 (by omega), List.getElem?_append_left hi2]
    · intro k hk
      simp only [List.length_append, List.length_singleton] at hk
      have hne : calls.length % 10 ≠ k := by
        have := Nat.mod_le calls.length 10
        omega
      simp only [List.getElem?_set_ne hne]
      exact hu k (by omega)

theorem record_all_fresh (garbage : Nat → Hist_Entry)
    (calls : List (Ptr × Ptr)) (hn : (calls.length : Int) ≤ INT_MAX) :
    ∃ r, record_all (fresh_history garbage) 0 [] calls = .ok r ∧
      r.count = (calls.length : Int) ∧
      (∀ i, i < calls.length → calls.length ≤ i + 10 →
        r.hist[i % 10]? = (calls[i]?).map (fun c => { cmd := c.1, args := c.2 })) ∧
      (∀ k, calls.length ≤ k → k < 10 → r.hist[k]? = some (garbage k)) := by
  obtain ⟨r, hr, hc, _, hw, hu⟩ :=
    record_all_spec (fresh_history garbage) (by simp [fresh_history, HISTORY_CAPACITY]) calls hn
  refine ⟨r, hr, hc, hw, fun k hk hk10 => ?_⟩
  rw [hu k hk]
  simp [fresh_history, HISTORY_CAPACITY, hk10]

theorem cstrAt_zero (X tail : List Char) (h : NUL ∉ X) : cstrAt (X ++ NUL :: tail) 0 = X := by
  simpa using cstrAt_append [] X tail 0 (Nat.le_refl _) (by simpa using h)

theorem strlen_append (X tail : List Char) (h : NUL ∉ X) :
    strlen (X ++ NUL :: tail) = X.length := by
  rw [strlen, cstrAt_zero X tail h]

theorem get_at (b : Char) (Y rest : List Char) (c : Char) (k : Int) (hk : k = Y.length) :
    LineBuf.get { before := b, bytes := Y ++ c :: rest } k = c := by
  subst hk
  simp [LineBuf.get, byteAt_append]

theorem put_at (b : Char) (Y rest : List Char) (c d : Char) (k : Int) (hk : k = Y.length) :
    LineBuf.put { before := b, bytes := Y ++ c :: rest } k d
      = { before := b, bytes := Y ++ d :: rest } := by
  subst hk
  have h1 : ¬ ((Y.length : Int) = -1) := by omega
  have h2 : ¬ ((Y.length : Int) < -1) := by omega
  simp [LineBuf.put, h1, h2, set_append_self]

theorem strip_newline_yes (b : Char) (Z tail : List Char) (h : NUL ∉ Z) :
    strip_newline { before := b, bytes := Z ++ '\n' :: NUL :: tail }
      = { before := b, bytes := Z ++ NUL :: NUL :: tail } := by
  have hn : NUL ∉ Z ++ ['\n'] := by
    simp only [List.mem_append, not_or]; exact ⟨h, by decide⟩
  have e : Z ++ '\n' :: NUL :: tail = (Z ++ ['\n']) ++ NUL :: tail := by simp
  have hl : strlen (Z ++ '\n' :: NUL :: tail) = Z.length + 1 := by
    rw [e, strlen_append _ _ hn]; simp
  have hg : LineBuf.get { before := b, bytes := Z ++ '\n' :: NUL :: tail }
      (((Z.length + 1 : Nat) : Int) - 1) = '\n' := get_at b _ _ _ _ (by simp)
  have hp := put_at b Z (NUL :: tail) '\n' NUL (((Z.length + 1 : Nat) : Int) - 1) (by simp)
  unfold strip_newline
  simp only [hl, hg, hp, if_true]

theorem strip_newline_no (b : Char) (Y tail : List Char) (c : Char) (h : NUL ∉ Y ++ [c])
    (hc : c ≠ '\n') :
    strip_newline { before := b, bytes := Y ++ c :: NUL :: tail }
      = { before := b, bytes := Y ++ c :: NUL :: tail } := by
  have e : Y ++ c :: NUL :: tail = (Y ++ [c]) ++ NUL :: tail := by simp
  have hl : strlen (Y ++ c :: NUL :: tail) = Y.length + 1 := by
    rw [e, strlen_append _ _ h]; simp
  have hg : LineBuf.get { before := b, bytes := Y ++ c :: NUL :: tail }
      (((Y.length + 1 : Nat) : Int) - 1) = c := get_at b _ _ _ _ (by simp)
  unfold strip_newline
  simp only [hl, hg, if_neg hc]

theorem strip_ampersand_yes (b : Char) (X tail : List Char) (c : Char) (h : NUL ∉ X ++ [c]) :
    strip_ampersand { before := b, bytes := X ++ c :: '&' :: NUL :: tail }
      = { buf := { before := b, bytes := X ++ NUL :: '&' :: NUL :: tail }, should_wait := 0 } := by
  have hn : NUL ∉ (X ++ [c]) ++ ['&'] := by
    simp only [List.mem_append, not_or]; exact ⟨by simpa using h, by decide⟩
  have e : X ++ c :: '&' :: NUL :: tail = ((X ++ [c]) ++ ['&']) ++ NUL :: tail := by simp
  have hl : strlen (X ++ c :: '&' :: NUL :: tail) = X.length + 2 := by
    rw [e, strlen_append _ _ hn]; simp
  have e2 : X ++ c :: '&' :: NUL :: tail = (X ++ [c]) ++ '&' :: NUL :: tail := by simp
  have hg : LineBuf.get { before := b, bytes := X ++ c :: '&' :: NUL :: tail }
      (((X.length + 2 : Nat) : Int) - 1) = '&' := by
    rw [e2]; exact get_at b _ _ _ _ (by simp; omega)
  have hp := put_at b X ('&' :: NUL :: tail) c NUL (((X.length + 2 : Nat) : Int) - 2)
    (by simp)
  unfold strip_ampersand
  simp only [hl, hg, hp, if_true]

theorem strip_ampersand_no (b : Char) (Y tail : List Char) (c : Char) (h : NUL ∉ Y ++ [c])
    (hc : c ≠ '&') :
    strip_ampersand { before := b, bytes := Y ++ c :: NUL :: tail }
      = { buf := { before := b, bytes := Y ++ c :: NUL :: tail }, should_wait := 1 } := by
  have e : Y ++ c :: NUL :: tail = (Y ++ [c]) ++ NUL :: tail := by simp
  have hl : strlen (Y ++ c :: NUL :: tail) = Y.length + 1 := by
    rw [e, strlen_append _ _ h]; simp
  have hg : LineBuf.get { before := b, bytes := Y ++ c :: NUL :: tail }
      (((Y.length + 1 : Nat) : Int) - 1) = c := get_at b _ _ _ _ (by simp)
  unfold strip_ampersand
  simp only [hl, hg, if_neg hc]

theorem preprocess_amp (b : Char) (X tail : List Char) (h : NUL ∉ X) :
    preprocess { before := b, bytes := X ++ ' ' :: '&' :: NUL :: tail }
      = { buf := { before := b, bytes := X ++ NUL :: '&' :: NUL :: tail }, should_wait := 0 } := by
  have hn : NUL ∉ X ++ [' '] := by
    simp only [List.mem_append, not_or]; exact ⟨h, by decide⟩
  have hn2 : NUL ∉ (X ++ [' ']) ++ ['&'] := by
    simp only [List.mem_append, not_or]; exact ⟨by simpa using hn, by decide⟩
  have e : X ++ ' ' :: '&' :: NUL :: tail = (X ++ [' ']) ++ '&' :: NUL :: tail := by simp
  unfold preprocess
  rw [e, strip_newline_no b _ tail '&' hn2 (by decide), ← e, strip_ampersand_yes b X tail ' ' hn]

theorem preprocess_amp_newline (b : Char) (X tail : List Char) (h : NUL ∉ X) :
    preprocess { before := b, bytes := X ++ ' ' :: '&' :: '\n' :: NUL :: tail }
      = { buf := { before := b, bytes := X ++ NUL :: '&' :: NUL :: NUL :: tail },
          should_wait := 0 } := by
  have hn : NUL ∉ X ++ [' '] := by
    simp only [List.mem_append, not_or]; exact ⟨h, by decide⟩
  have hn2 : NUL ∉ X ++ [' ', '&'] := by
    simp only [List.mem_append, not_or]; exact ⟨h, by decide⟩
  have e : X ++ ' ' :: '&' :: '\n' :: NUL :: tail
      = (X ++ [' ', '&']) ++ '\n' :: NUL :: tail := by simp
  have e2 : (X ++ [' ', '&']) ++ NUL :: NUL :: tail
      = X ++ ' ' :: '&' :: NUL :: NUL :: tail := by simp
  unfold preprocess
  rw [e, strip_newline_yes b _ tail hn2, e2, strip_ampersand_yes b X (NUL :: tail) ' ' hn]

theorem preprocess_newline (b : Char) (Y tail : List Char) (c : Char) (h : NUL ∉ Y ++ [c])
    (hc : c ≠ '&') :
    preprocess { before := b, bytes := Y ++ c :: '\n' :: NUL :: tail }
      = { buf := { before := b, bytes := Y ++ c :: NUL :: NUL :: tail }, should_wait := 1 } := by
  have e : Y ++ c :: '\n' :: NUL :: tail = (Y ++ [c]) ++ '\n' :: NUL :: tail := by simp
  have e2 : (Y ++ [c]) ++ NUL :: NUL :: tail = Y ++ c :: NUL :: NUL :: tail := by simp
  unfold preprocess
  rw [e, strip_newline_yes b _ tail h, e2, strip_ampersand_no b Y (NUL :: tail) c h hc]

theorem preprocess_plain (b : Char) (Y tail : List Char) (c : Char) (h : NUL ∉ Y ++ [c])
    (hc : c ≠ '&') (hc2 : c ≠ '\n') :
    preprocess { before := b, bytes := Y ++ c :: NUL :: tail }
      = { buf := { before := b, bytes := Y ++ c :: NUL :: tail }, should_wait := 1 } := by
  unfold preprocess
  rw [strip_newline_no b Y tail c h hc2, strip_ampersand_no b Y tail c h hc]

theorem dispatched_wait (s : Shell) (cmd : List Char) (sw : Int) (fk : Bool) (s1 : Shell)
    (a : Ptr) (w : Int) (h : main_dispatch s cmd sw fk = .ok (s1, .dispatched a w)) : w = sw := by
  unfold main_dispatch at h
  split at h
  · simp at h
  · split at h
    · split at h <;> simp at h
    · split at h
      · simp at h
      · split at h
        · simp at h
        · split at h
          · simp at h
          · simp only [Except.ok.injEq, Prod.mk.injEq, Outcome.dispatched.injEq] at h
            exact h.2.2.symm

/-- C10: for every text `X` (without NUL) the preparation of the line `X &`, with
or without its newline, leaves the command text `X` and `should_wait = 0`; of a
line `X` whose last character is not `&`, with its newline or (if that
character is no newline) without, it leaves the text `X` and `should_wait = 1`;
and whenever an iteration dispatches, the parent waits according to that
`should_wait`. -/
theorem preprocess_background (before : Char) (X : List Char) (hX : NUL ∉ X) :
    (cstrAt (preprocess { before := before, bytes := (X ++ [' ', '&']) ++ [NUL] }).buf.bytes 0 = X ∧
      (preprocess { before := before, bytes := (X ++ [' ', '&']) ++ [NUL] }).should_wait = 0) ∧
    (cstrAt (preprocess
        { before := before, bytes := (X ++ [' ', '&', '\n']) ++ [NUL] }).buf.bytes 0 = X ∧
      (preprocess
        { before := before, bytes := (X ++ [' ', '&', '\n']) ++ [NUL] }).should_wait = 0) ∧
    (∀ c, X.getLast? = some c → c ≠ '&' →
      (cstrAt (preprocess { before := before, bytes := (X ++ ['\n']) ++ [NUL] }).buf.bytes 0 = X ∧
        (preprocess { before := before, bytes := (X ++ ['\n']) ++ [NUL] }).should_wait = 1) ∧
      (c ≠ '\n' →
        cstrAt (preprocess { before := before, bytes := X ++ [NUL] }).buf.bytes 0 = X ∧
        (preprocess { before := before, bytes := X ++ [NUL] }).should_wait = 1)) ∧
    (∀ s inp s1 a w, main_iteration s inp = .ok (s1, .dispatched a w) →
      w = (preprocess { before := inp.before, bytes := inp.line ++ [NUL] }).should_wait) := by
  refine ⟨?_, ?_, ?_, ?_⟩
  · have e : (X ++ [' ', '&']) ++ [NUL] = X ++ ' ' :: '&' :: NUL :: [] := by simp
    rw [e, preprocess_amp before X [] hX]
    exact ⟨cstrAt_zero X _ hX, rfl⟩
  · have e : (X ++ [' ', '&', '\n']) ++ [NUL] = X ++ ' ' :: '&' :: '\n' :: NUL :: [] := by simp
    rw [e, preprocess_amp_newline before X [] hX]
    exact ⟨cstrAt_zero X _ hX, rfl⟩
  · intro c hc hamp
    have hX2 : X.dropLast ++ [c] = X := List.dropLast_append_getLast? c hc
    have hn : NUL ∉ X.dropLast ++ [c] := by rw [hX2]; exact hX
    refine ⟨?_, fun hnl => ?_⟩
    · have e : (X ++ ['\n']) ++ [NUL] = X.dropLast ++ c :: '\n' :: NUL :: [] := by
        conv_lhs => rw [← hX2]
        simp
      rw [e, preprocess_newline before X.dropLast [] c hn hamp]
      have e2 : X.dropLast ++ c :: NUL :: NUL :: [] = X ++ NUL :: [NUL] := by
        conv_rhs => rw [← hX2]
        simp
      exact ⟨by rw [e2]; exact cstrAt_zero X _ hX, rfl⟩
    · have e : X ++ [NUL] = X.dropLast ++ c :: NUL :: [] := by
        conv_lhs => rw [← hX2]
        simp
      rw [e, preprocess_plain before X.dropLast [] c hn hamp hnl]
      exact ⟨by rw [← e]; exact cstrAt_zero X _ hX, rfl⟩
  · intro s inp s1 a w h
    unfold main_iteration at h
    exact dispatched_wait s _ _ inp.fork_ok s1 a w h

/-- C10 at the line `ls &`. -/
theorem preprocess_background_witness :
    NUL ∉ ['l', 's'] ∧
    cstrAt (preprocess { before := NUL, bytes := (['l', 's'] ++ [' ', '&', '\n']) ++ [NUL] }).buf.bytes 0
      = ['l', 's'] ∧
    (preprocess { before := NUL, bytes := (['l', 's'] ++ [' ', '&', '\n']) ++ [NUL] }).should_wait = 0 :=
  ⟨by decide, (preprocess_background NUL ['l', 's'] (by decide)).2.1⟩

/-! ### Decimal numbers: `atoi` reads back what `%i` writes -/

theorem digitChar_spec (k : Nat) (hk : k < 10) :
    (Nat.digitChar k).isDigit = true ∧ ((Nat.digitChar k).toNat : Int) - 48 = (k : Int) := by
  interval_cases k <;> exact ⟨by decide, by decide⟩

theorem toDigitsCore_digits (f : Nat) : ∀ (n : Nat) (ds : List Char),
    ∃ pre, Nat.toDigitsCore 10 f n ds = pre ++ ds ∧ (∀ c ∈ pre, c.isDigit = true) ∧
      (0 < f → pre ≠ []) := by
  induction f with
  | zero => intro n ds; exact ⟨[], rfl, by simp, by simp⟩
  | succ f ih =>
    intro n ds
    have hd := (digitChar_spec (n % 10) (Nat.mod_lt _ (by decide))).1
    unfold Nat.toDigitsCore
    by_cases h0 : n / 10 = 0
    · simp only [h0, if_true]
      exact ⟨[Nat.digitChar (n % 10)], rfl, by simpa using hd, by simp⟩
    · simp only [h0, if_false]
      obtain ⟨pre, hp, hall, _⟩ := ih (n / 10) (Nat.digitChar (n % 10) :: ds)
      refine ⟨pre ++ [Nat.digitChar (n % 10)], by rw [hp]; simp, ?_, by simp⟩
      intro c hc
      rcases List.mem_append.mp hc with h | h
      · exact hall c h
      · simp at h; rw [h]; exact hd

theorem atoi_digits_toDigitsCore (f : Nat) : ∀ (n : Nat) (ds : List Char), n < f →
    atoi_digits (Nat.toDigitsCore 10 f n ds) 0 = atoi_digits ds (n : Int) := by
  induction f with
  | zero => intro n ds h; omega
  | succ f ih =>
    intro n ds hn
    obtain ⟨hd, hv⟩ := digitChar_spec (n % 10) (Nat.mod_lt _ (by decide))
    unfold Nat.toDigitsCore
    by_cases h0 : n / 10 = 0
    · simp only [h0, if_true, atoi_digits, hd, hv]
      congr 1
      omega
    · simp only [h0, if_false]
      rw [ih (n / 10) _ (by omega)]
      simp only [atoi_digits, hd, if_true, hv]
      congr 1
      omega

theorem digit_facts (d : Char) (hd : d.isDigit = true) :
    isspace d = false ∧ d ≠ '-' ∧ d ≠ '+' ∧ d ≠ '!' ∧ d ≠ NUL ∧ d ≠ 'q' ∧ d ≠ '&' ∧ d ≠ '\n' := by
  refine ⟨?_, ?_, ?_, ?_, ?_, ?_, ?_, ?_⟩
  · unfold isspace
    simp only [decide_eq_false_iff_not, not_or]
    refine ⟨?_, ?_, ?_, ?_, ?_, ?_⟩ <;> (intro e; rw [e] at hd; exact absurd hd (by decide))
  all_goals (intro e; rw [e] at hd; exact absurd hd (by decide))

theorem strtol_value_digit_head (d : Char) (rest : List Char) (hd : d.isDigit = true) :
    strtol_value (d :: rest) = atoi_digits (d :: rest) 0 := by
  obtain ⟨hs, hm, hp, _⟩ := digit_facts d hd
  unfold strtol_value
  simp only [List.dropWhile, hs]
  split
  · rename_i h; simp at h; exact absurd h.1 hm
  · rename_i h; simp at h; exact absurd h.1 hp
  · rfl

theorem strtol_value_toDigits (n : Nat) : strtol_value (Nat.toDigits 10 n) = (n : Int) := by
  obtain ⟨pre, hp, hall, hne⟩ := toDigitsCore_digits (n + 1) n []
  have hv := atoi_digits_toDigitsCore (n + 1) n [] (Nat.lt_succ_self n)
  unfold Nat.toDigits
  cases hpre : pre with
  | nil => exact absurd hpre (hne (Nat.succ_pos n))
  | cons d rest =>
    rw [hpre] at hp hall
    simp only [List.append_nil] at hp
    rw [hp] at hv ⊢
    rw [strtol_value_digit_head d rest (hall d (List.mem_cons_self _ _)), hv]
    rfl

theorem atoi_of_int_range (s : List Char) (h0 : 0 ≤ strtol_value s)
    (h1 : strtol_value s ≤ INT_MAX) : atoi s = strtol_value s := by
  unfold atoi strtol wrap_int LONG_MAX
  unfold INT_MAX at h1
  have hA : ¬ (strtol_value s > 9223372036854775807) := by omega
  have hB : ¬ (strtol_value s < -9223372036854775807 - 1) := by omega
  rw [if_neg hA, if_neg hB]
  omega

theorem atoi_toDigits (n : Nat) (hn : (n : Int) ≤ INT_MAX) :
    atoi (Nat.toDigits 10 n) = (n : Int) := by
  rw [atoi_of_int_range _ (by rw [strtol_value_toDigits]; omega)
    (by rw [strtol_value_toDigits]; exact hn), strtol_value_toDigits]

theorem toDigits_digits (n : Nat) :
    ∃ d rest, Nat.toDigits 10 n = d :: rest ∧ ∀ c ∈ d :: rest, c.isDigit = true := by
  obtain ⟨pre, hp, hall, hne⟩ := toDigitsCore_digits (n + 1) n []
  unfold Nat.toDigits
  cases hpre : pre with
  | nil => exact absurd hpre (hne (Nat.succ_pos n))
  | cons d rest =>
    rw [hpre] at hp hall
    simp only [List.append_nil] at hp
    exact ⟨d, rest, hp, hall⟩

/-! ### One dispatching iteration -/

theorem add_command_to_history_ok (hist : List Hist_Entry) (cmd args : Ptr) (count : Int)
    (h0 : 0 ≤ count) :
    ∃ fr, add_command_to_history hist cmd args count
      = .ok { hist := hist.set (count.toNat % 10) { cmd := cmd, args := args }
              count := wrap_int (count + 1)
              released := fr } := by
  obtain ⟨n, rfl⟩ := Int.eq_ofNat_of_zero_le h0
  have hk : ¬ ((((n % 10 : Nat) : Int) < 0) ∨ (HISTORY_CAPACITY : Int) ≤ ((n % 10 : Nat) : Int)) := by
    unfold HISTORY_CAPACITY; omega
  refine ⟨if (HISTORY_CAPACITY : Int) ≤ (n : Int) ∧ one_hist_ref hist (n % 10) = true then
      (match hist[n % 10]? with
        | some old => [old.cmd, old.args]
        | none => [])
      else [], ?_⟩
  unfold add_command_to_history
  simp only [tmod_capacity, if_neg hk, Int.toNat_ofNat]

theorem main_dispatch_record (s : Shell) (cmd : List Char) (sw : Int) (r : Resolved)
    (hq : byteAt cmd 0 ≠ 'q') (hh : cstrAt cmd 0 ≠ history_word)
    (hr : resolve s cmd = .ok r) (hc : 0 ≤ s.command_count) :
    ∃ fr, main_dispatch s cmd sw true
      = .ok ({ history := s.history.set (s.command_count.toNat % 10)
                 { cmd := r.cmd, args := r.args }
               command_count := wrap_int (s.command_count + 1)
               cmd := .heap r.next_block 0
               next_block := r.next_block + 1
               arrays := r.arrays
               freed := s.freed ++ fr }, .dispatched r.args sw) := by
  obtain ⟨fr, hadd⟩ := add_command_to_history_ok s.history r.cmd r.args s.command_count hc
  refine ⟨fr, ?_⟩
  unfold main_dispatch
  simp only [if_neg hq, if_neg hh, hr, hadd]
  rfl

theorem hist_get_nat (hist : List Hist_Entry) (n : Nat) (entry : Hist_Entry)
    (h : hist[n % 10]? = some entry) :
    hist_get hist (Int.tmod (n : Int) (HISTORY_CAPACITY : Int)) = .ok entry := by
  have hk : ¬ ((((n % 10 : Nat) : Int) < 0) ∨ (HISTORY_CAPACITY : Int) ≤ ((n % 10 : Nat) : Int)) := by
    unfold HISTORY_CAPACITY; omega
  unfold hist_get
  simp only [tmod_capacity, if_neg hk, Int.toNat_ofNat, h]

theorem resolve_bang_number (s : Shell) (n : Nat) (tail : List Char) (entry : Hist_Entry)
    (hn : (n : Int) ≤ INT_MAX) (h : s.history[n % 10]? = some entry) :
    resolve s ('!' :: Nat.toDigits 10 n ++ NUL :: tail)
      = .ok { cmd := s.cmd.succ, args := entry.args, next_block := s.next_block,
              arrays := s.arrays } := by
  obtain ⟨d, rest, hd, hall⟩ := toDigits_digits n
  have hv := atoi_toDigits n hn
  rw [hd] at hv ⊢
  have hdig := hall d (List.mem_cons_self _ _)
  obtain ⟨_, _, _, hb, _⟩ := digit_facts d hdig
  have hnul : NUL ∉ d :: rest := fun hm => (digit_facts NUL (hall NUL hm)).2.2.2.2.1 rfl
  have hs : cstrAt ('!' :: (d :: rest) ++ NUL :: tail) 1 = d :: rest := by
    have := cstrAt_append ['!'] (d :: rest) tail 1 (by simp) (by simpa using hnul)
    simpa using this
  unfold resolve
  have b0 : byteAt ('!' :: (d :: rest) ++ NUL :: tail) 0 = '!' := rfl
  have b1 : byteAt ('!' :: (d :: rest) ++ NUL :: tail) 1 = d := rfl
  simp only [b0, b1, if_true, if_neg hb, hdig, hs, hv, hist_get_nat s.history n entry h]

theorem bang_number_text (n : Nat) :
    ∃ Y c, Nat.toDigits 10 n = Y ++ [c] ∧ NUL ∉ ('!' :: Y) ++ [c] ∧ c ≠ '&' ∧ c ≠ '\n' := by
  obtain ⟨d, rest, hd, hall⟩ := toDigits_digits n
  have hne : Nat.toDigits 10 n ≠ [] := by rw [hd]; simp
  have hm : (Nat.toDigits 10 n).getLast hne ∈ d :: rest := by
    rw [← hd]; exact List.getLast_mem hne
  refine ⟨(Nat.toDigits 10 n).dropLast, (Nat.toDigits 10 n).getLast hne, ?_, ?_, ?_, ?_⟩
  · exact (List.dropLast_append_getLast hne).symm
  · have e : ('!' :: (Nat.toDigits 10 n).dropLast) ++ [(Nat.toDigits 10 n).getLast hne]
        = '!' :: Nat.toDigits 10 n := by
      rw [List.cons_append, List.dropLast_append_getLast hne]
    rw [e, hd]
    intro hm
    rcases List.mem_cons.mp hm with h | h
    · exact absurd h (by decide)
    · exact (digit_facts NUL (hall NUL h)).2.2.2.2.1 rfl
  · exact (digit_facts _ (hall _ hm)).2.2.2.2.2.2.1
  · exact (digit_facts _ (hall _ hm)).2.2.2.2.2.2.2

/-- C3: when the history holds what `n` calls of `add_command_to_history`
recorded (`n` within the range of the `int` counter) and `N` is one of the last
ten sequence numbers, the line `!N`, with or without its newline, dispatches
exactly the `args` pointer that call number `N` recorded. -/
theorem bang_number_resolves (garbage : Nat → Hist_Entry) (calls : List (Ptr × Ptr))
    (hn : (calls.length : Int) ≤ INT_MAX) (s : Shell)
    (hs : record_all (fresh_history garbage) 0 [] calls
      = .ok { hist := s.history, count := s.command_count, released := s.freed })
    (N : Nat) (entry : Ptr × Ptr) (hN : calls[N]? = some entry) (hw : calls.length ≤ N + 10)
    (before : Char) :
    (∃ s1, main_iteration s { before := before, line := '!' :: Nat.toDigits 10 N, fork_ok := true }
      = .ok (s1, .dispatched entry.2 1)) ∧
    (∃ s1, main_iteration s
        { before := before, line := '!' :: Nat.toDigits 10 N ++ ['\n'], fork_ok := true }
      = .ok (s1, .dispatched entry.2 1)) := by
  obtain ⟨r, hr, hc, hwin, _⟩ := record_all_fresh garbage calls hn
  rw [hs] at hr
  cases hr
  simp only at hc hwin
  have hlt : N < calls.length := by
    rcases Nat.lt_or_ge N calls.length with h | h
    · exact h
    · rw [List.getElem?_eq_none h] at hN; cases hN
  have hslot : s.history[N % 10]? = some { cmd := entry.1, args := entry.2 } := by
    rw [hwin N hlt hw, hN]; rfl
  have hcount : 0 ≤ s.command_count := by rw [hc]; omega
  obtain ⟨Y, c, hY, hnul, hamp, hnl⟩ := bang_number_text N
  have hq : ∀ tail, byteAt ('!' :: Nat.toDigits 10 N ++ NUL :: tail) 0 ≠ 'q' := by
    intro tail; show '!' ≠ 'q'; decide
  have hh : ∀ tail, cstrAt ('!' :: Nat.toDigits 10 N ++ NUL :: tail) 0 ≠ history_word := by
    intro tail
    have hn0 : NUL ∉ '!' :: Nat.toDigits 10 N := by rw [hY]; simpa using hnul
    rw [cstrAt_zero _ tail hn0]
    intro h
    have := congrArg List.head? h
    simp [history_word] at this
  constructor
  · have hp := preprocess_plain before ('!' :: Y) [] c hnul hamp hnl
    have e : ('!' :: Nat.toDigits 10 N) ++ [NUL] = ('!' :: Y) ++ c :: NUL :: [] := by
      rw [hY]; simp
    obtain ⟨fr, hd⟩ := main_dispatch_record s ('!' :: Nat.toDigits 10 N ++ NUL :: []) 1 _
      (hq []) (hh []) (resolve_bang_number s N [] _ (by omega) hslot) hcount
    unfold main_iteration
    simp only [e, hp]
    rw [← e]
    exact ⟨_, hd⟩
  · have hp := preprocess_newline before ('!' :: Y) [] c hnul hamp
    have e : ('!' :: Nat.toDigits 10 N ++ ['\n']) ++ [NUL]
        = ('!' :: Y) ++ c :: '\n' :: NUL :: [] := by
      rw [hY]; simp
    have e2 : ('!' :: Y) ++ c :: NUL :: NUL :: [] = '!' :: Nat.toDigits 10 N ++ NUL :: [NUL] := by
      rw [hY]; simp
    obtain ⟨fr, hd⟩ := main_dispatch_record s ('!' :: Nat.toDigits 10 N ++ NUL :: [NUL]) 1 _
      (hq _) (hh _) (resolve_bang_number s N _ _ (by omega) hslot) hcount
    unfold main_iteration
    simp only [e, hp, e2]
    exact ⟨_, hd⟩

/-- C3 after twelve fresh commands: `!5` dispatches the `args` of command 5. -/
theorem bang_number_resolves_witness :
    (sample_calls.length : Int) ≤ INT_MAX ∧
    record_all (fresh_history sample_garbage) 0 [] sample_calls
      = .ok { hist := (shell_after (fresh_lines 12)).history
              count := (shell_after (fresh_lines 12)).command_count
              released := (shell_after (fresh_lines 12)).freed } ∧
    sample_calls[5]? = some (Ptr.heap 10 0, Ptr.heap 11 0) ∧
    sample_calls.length ≤ 5 + 10 ∧
    ∃ s1, main_iteration (shell_after (fresh_lines 12))
        { before := NUL, line := ['!', '5', '\n'], fork_ok := true }
      = .ok (s1, .dispatched (Ptr.heap 11 0) 1) :=
  ⟨by decide, by rfl, by decide, by decide,
    (bang_number_resolves sample_garbage sample_calls (by decide) (shell_after (fresh_lines 12))
      (by rfl) 5 (Ptr.heap 10 0, Ptr.heap 11 0) (by decide) (by decide) NUL).2⟩

/-! ### Every state of the loop is a state of the circular buffer -/

theorem main_dispatch_recorded (h0 : List Hist_Entry) (calls : List (Ptr × Ptr)) (s : Shell)
    (hs : record_all h0 0 [] calls
      = .ok { hist := s.history, count := s.command_count, released := s.freed })
    (cmd : List Char) (sw : Int) (fk : Bool) (s1 : Shell) (o : Outcome)
    (h : main_dispatch s cmd sw fk = .ok (s1, o)) :
    ∃ calls1, record_all h0 0 [] calls1
      = .ok { hist := s1.history, count := s1.command_count, released := s1.freed } := by
  unfold main_dispatch at h
  split at h
  · simp only [Except.ok.injEq, Prod.mk.injEq] at h
    exact ⟨calls, by rw [← h.1]; exact hs⟩
  · split at h
    · split at h
      · simp at h
      · simp only [Except.ok.injEq, Prod.mk.injEq] at h
        exact ⟨calls, by rw [← h.1]; exact hs⟩
    · split at h
      · simp at h
      · rename_i r hr
        split at h
        · simp only [Except.ok.injEq, Prod.mk.injEq] at h
          exact ⟨calls, by rw [← h.1]; exact hs⟩
        · split at h
          · simp at h
          · rename_i rec hrec
            simp only [Except.ok.injEq, Prod.mk.injEq] at h
            refine ⟨calls ++ [(r.cmd, r.args)], ?_⟩
            rw [record_all_snoc, hs]
            simp only [hrec, ← h.1]

theorem run_cons (s : Shell) (inp : Input) (rest : List Input) :
    run s (inp :: rest) = run_next (main_iteration s inp) (fun s1 => run s1 rest) := rfl

theorem run_recorded (garbage : Nat → Hist_Entry) (lines : List Input) :
    ∀ (s s1 : Shell),
      (∃ calls, record_all (fresh_history garbage) 0 [] calls
        = .ok { hist := s.history, count := s.command_count, released := s.freed }) →
      run s lines = .ok s1 →
      ∃ calls, record_all (fresh_history garbage) 0 [] calls
        = .ok { hist := s1.history, count := s1.command_count, released := s1.freed } := by
  induction lines with
  | nil =>
    intro s s1 hs h
    have e : s = s1 := Except.ok.inj h
    subst e
    exact hs
  | cons inp rest ih =>
    intro s s1 hs h
    obtain ⟨calls, hc⟩ := hs
    rw [run_cons] at h
    unfold run_next at h
    split at h
    · simp at h
    · rename_i res hit
      unfold main_iteration at hit
      have hrec := main_dispatch_recorded _ calls s hc _ _ _ res.1 res.2 hit
      split at h
      · have e : res.1 = s1 := Except.ok.inj h
        rw [← e]; exact hrec
      · exact ih res.1 s1 hrec h

theorem run_init_recorded (garbage : Nat → Hist_Entry) (lines : List Input) (s1 : Shell)
    (h : run (Shell.init garbage) lines = .ok s1) :
    ∃ calls, record_all (fresh_history garbage) 0 [] calls
      = .ok { hist := s1.history, count := s1.command_count, released := s1.freed } :=
  run_recorded garbage lines (Shell.init garbage) s1 ⟨[], rfl⟩ h

/-! ### `print_history` -/

theorem print_args_words (p : Ptr) (ws : List (List Char)) (rest : List (Option (List Char))) :
    print_args p (ws.map some ++ none :: rest) = .ok (ws.map (fun a => a ++ [' '])).flatten := by
  induction ws with
  | nil => rfl
  | cons w ws ih => simp [print_args, ih]

theorem fmt_int_nat (i : Nat) : fmt_int (i : Int) = Nat.toDigits 10 i := by
  unfold fmt_int
  have : ¬ ((i : Int) < 0) := by omega
  simp only [if_neg this, Int.toNat_ofNat]

theorem print_history_loop_spec (mem : Ptr → Option (List (Option (List Char))))
    (hist : List Hist_Entry) (n : Nat) (words : Nat → List (List Char))
    (hslot : ∀ i, i < n → n ≤ i + 10 →
      ∃ e rest, hist[i % 10]? = some e ∧ mem e.args = some ((words i).map some ++ none :: rest))
    (fuel : Nat) :
    ∀ m, m ≤ n → m - (n - 10) ≤ fuel →
      print_history_loop mem hist n fuel ((m : Int) - 1)
        = .ok ((List.range (m - (n - 10))).map
            (fun k => history_line (m - 1 - k) (words (m - 1 - k)))).flatten := by
  induction fuel with
  | zero =>
    intro m _ hf
    have : m - (n - 10) = 0 := by omega
    simp [print_history_loop, this]
  | succ f ih =>
    intro m hm hf
    unfold print_history_loop
    by_cases hc : 0 ≤ (m : Int) - 1 ∧ (n : Int) - (HISTORY_CAPACITY : Int) ≤ (m : Int) - 1
    · have hm1 : 1 ≤ m := by omega
      have hlo : n ≤ (m - 1) + 10 := by unfold HISTORY_CAPACITY at hc; omega
      obtain ⟨e, rest, he, hme⟩ := hslot (m - 1) (by omega) hlo
      have hidx : (m : Int) - 1 = ((m - 1 : Nat) : Int) := by omega
      have hnext : ((m - 1 : Nat) : Int) - 1 = (m : Int) - 1 - 1 := by omega
      have hrec := ih (m - 1) (by omega) (by omega)
      rw [hnext] at hrec
      have hr : m - (n - 10) = (m - 1 - (n - 10)) + 1 := by omega
      simp only [if_pos hc, hrec]
      rw [hidx, hist_get_nat hist (m - 1) e he]
      simp only [hme, print_args_words, fmt_int_nat]
      have key : (fun k => history_line (m - 1 - Nat.succ k) (words (m - 1 - Nat.succ k)))
          = (fun k => history_line (m - 1 - 1 - k) (words (m - 1 - 1 - k))) := by
        funext k
        rw [show m - 1 - Nat.succ k = m - 1 - 1 - k by omega]
      rw [hr, List.range_succ_eq_map]
      simp only [List.map_cons, List.map_map, List.flatten_cons, Nat.sub_zero,
        Function.comp_def, key]
      simp only [history_line, List.append_assoc, List.cons_append, List.nil_append]
    · have : m - (n - 10) = 0 := by unfold HISTORY_CAPACITY at hc; omega
      simp only [if_neg hc, this, List.range_zero, List.map_nil, List.flatten_nil]

/-- The output of `print_history` on readable arrays. When the history holds
what `n` calls of `add_command_to_history` recorded (`n` within the range of the
`int` counter) and, as a hypothesis on the memory, the `args` recorded with each
of the last ten sequence numbers `i` is a readable array of the arguments
`words i` closed by `NULL`, `print_history` writes exactly `min n 10` lines, for
the sequence numbers `n-1`, `n-2`, ... downwards, the line for `i` being `i | `
and the arguments `words i`, each followed by a space. The hypothesis holds
after fresh commands only: an entry recorded by `!N`, `!!` or `!x` can hold a
released, unassigned or null `args`. -/
theorem print_history_readable (garbage : Nat → Hist_Entry) (calls : List (Ptr × Ptr))
    (hn : (calls.length : Int) ≤ INT_MAX) (r : Recorded)
    (hr : record_all (fresh_history garbage) 0 [] calls = .ok r)
    (mem : Ptr → Option (List (Option (List Char))))
    (words : Nat → List (List Char)) (rest : Nat → List (Option (List Char)))
    (hmem : ∀ i, i < calls.length → calls.length ≤ i + 10 →
      (calls[i]?).map (fun c => mem c.2) = some (some ((words i).map some ++ none :: rest i))) :
    print_history mem r.hist r.count
      = .ok ((List.range (min calls.length 10)).map
          (fun k => history_line (calls.length - 1 - k) (words (calls.length - 1 - k)))).flatten := by
  obtain ⟨r2, hr2, hc, hwin, _⟩ := record_all_fresh garbage calls hn
  rw [hr] at hr2
  cases hr2
  have hslot : ∀ i, i < calls.length → calls.length ≤ i + 10 →
      ∃ e rest, r.hist[i % 10]? = some e ∧
        mem e.args = some ((words i).map some ++ none :: rest) := by
    intro i hi hi10
    have h1 := hwin i hi hi10
    have h2 := hmem i hi hi10
    cases hci : calls[i]? with
    | none => rw [hci] at h2; simp at h2
    | some c =>
      rw [hci] at h1 h2
      simp only [Option.map_some', Option.some.injEq] at h1 h2
      exact ⟨_, rest i, h1, h2⟩
  have hloop := print_history_loop_spec mem r.hist calls.length words hslot HISTORY_CAPACITY
    calls.length (Nat.le_refl _) (by unfold HISTORY_CAPACITY; omega)
  have hmin : calls.length - (calls.length - 10) = min calls.length 10 := by omega
  unfold print_history
  rw [hc, hloop, hmin]

/-- After twelve fresh commands `print_history` writes ten lines, for the commands
11 down to 2. -/
theorem print_history_readable_sample :
    (sample_calls.length : Int) ≤ INT_MAX ∧
    record_all (fresh_history sample_garbage) 0 [] sample_calls
      = .ok { hist := (shell_after (fresh_lines 12)).history
              count := (shell_after (fresh_lines 12)).command_count
              released := (shell_after (fresh_lines 12)).freed } ∧
    (∀ i, i < sample_calls.length → sample_calls.length ≤ i + 10 →
      (sample_calls[i]?).map (fun c => (shell_after (fresh_lines 12)).mem c.2)
        = some (some ((sample_words i).map some ++ none :: []))) ∧
    print_history (shell_after (fresh_lines 12)).mem (shell_after (fresh_lines 12)).history
        (shell_after (fresh_lines 12)).command_count
      = .ok ((List.range (min sample_calls.length 10)).map
          (fun k => history_line (sample_calls.length - 1 - k)
            (sample_words (sample_calls.length - 1 - k)))).flatten :=
  ⟨by decide, by rfl, @of_decide_eq_true _ (Nat.decidableBallLT _ _) (by rfl),
    print_history_readable sample_garbage sample_calls (by decide)
      { hist := (shell_after (fresh_lines 12)).history
        count := (shell_after (fresh_lines 12)).command_count
        released := (shell_after (fresh_lines 12)).freed } (by rfl)
      (shell_after (fresh_lines 12)).mem sample_words (fun _ => [])
      (@of_decide_eq_true _ (Nat.decidableBallLT _ _) (by rfl))⟩

/-! ### Runs on which the code leaves the specification -/

/-- C2: after ten fresh commands `!!` dispatches the `args` of command 9, but
after eleven it evaluates `history[10]`, an index outside the ten-slot array,
where the entry with sequence number 10 lies in slot 0. -/
theorem bang_bang_past_capacity :
    (main_iteration (shell_after (fresh_lines 10)) (typed ['!', '!'])).map Prod.snd
      = .ok (.dispatched (Ptr.heap 19 0) 1) ∧
    (shell_after (fresh_lines 11)).command_count = 11 ∧
    (shell_after (fresh_lines 11)).history[0]?
      = some { cmd := Ptr.heap 20 0, args := Ptr.heap 21 0 } ∧
    main_iteration (shell_after (fresh_lines 11)) (typed ['!', '!'])
      = .error (.history_index 10) := by
  refine ⟨by rfl, by rfl, by rfl, by rfl⟩

/-- C4: `!5` after three recorded commands dispatches the never assigned content
of slot 5 and records it as command 3; `!0` after eleven recorded commands
dispatches the `args` of command 10, which occupies slot 0, and records it as
command 11. Neither is refused. -/
theorem bang_number_outside_window :
    (shell_after (fresh_lines 3)).command_count = 3 ∧
    (main_iteration (shell_after (fresh_lines 3)) (typed ['!', '5'])).map
        (fun r => (r.1.command_count, r.1.history[3]?, r.2))
      = .ok (4, some { cmd := Ptr.heap 6 1, args := (sample_garbage 5).args },
          .dispatched (sample_garbage 5).args 1) ∧
    (shell_after (fresh_lines 11)).command_count = 11 ∧
    (shell_after (fresh_lines 11)).history[0]?
      = some { cmd := Ptr.heap 20 0, args := Ptr.heap 21 0 } ∧
    (main_iteration (shell_after (fresh_lines 11)) (typed ['!', '0'])).map
        (fun r => (r.1.command_count, r.1.history[1]?, r.2))
      = .ok (12, some { cmd := Ptr.heap 22 1, args := Ptr.heap 21 0 },
          .dispatched (Ptr.heap 21 0) 1) := by
  refine ⟨by rfl, by rfl, by rfl, by rfl, by rfl⟩

/-- C6: after ten fresh commands and `!0`, slot 0 holds the live entry with
sequence number 10, whose `args` is the array of command 0, and that array has
been passed to `free` by the very call that stored it. -/
theorem replayed_args_freed :
    (shell_after (fresh_lines 10)).history[0]?
      = some { cmd := Ptr.heap 0 0, args := Ptr.heap 1 0 } ∧
    (shell_after (fresh_lines 10)).freed = [] ∧
    (shell_after (fresh_lines 10 ++ [typed ['!', '0']])).command_count = 11 ∧
    (shell_after (fresh_lines 10 ++ [typed ['!', '0']])).history[0]?
      = some { cmd := Ptr.heap 20 1, args := Ptr.heap 1 0 } ∧
    (shell_after (fresh_lines 10 ++ [typed ['!', '0']])).freed
      = [Ptr.heap 0 0, Ptr.heap 1 0] := by
  refine ⟨by rfl, by rfl, by rfl, by rfl, by rfl⟩

/-- C7: after the ten fresh commands `c0` ... `c9` the word `history` prints the
ten lines for 9 down to 0. After `!0` typed next, eleven commands are recorded
and the entry with sequence number 10, in slot 0, holds the `args` array of
command 0, which the call that stored the entry has passed to `free`: for its
first line `history` reads that released array, where `10 | c0 ` is due. After
`!x` typed first, entry 0 holds `args = NULL` and `history` reads through the
null pointer; after three fresh commands and `!5` entry 3 holds the never
assigned content of slot 5 and `history` reads through it. -/
theorem print_history_reads_released_args :
    (main_iteration (shell_after (fresh_lines 10)) (typed history_word)).map Prod.snd
      = .ok (.printed ((List.range 10).map
          (fun k => history_line (9 - k) (sample_words (9 - k)))).flatten) ∧
    (shell_after (fresh_lines 10 ++ [typed ['!', '0']])).command_count = 11 ∧
    (shell_after (fresh_lines 10 ++ [typed ['!', '0']])).history[0]?
      = some { cmd := Ptr.heap 20 1, args := Ptr.heap 1 0 } ∧
    Ptr.heap 1 0 ∈ (shell_after (fresh_lines 10 ++ [typed ['!', '0']])).freed ∧
    main_iteration (shell_after (fresh_lines 10 ++ [typed ['!', '0']])) (typed history_word)
      = .error (.args_unreadable (Ptr.heap 1 0)) ∧
    (shell_after [typed ['!', 'x']]).command_count = 1 ∧
    main_iteration (shell_after [typed ['!', 'x']]) (typed history_word)
      = .error (.args_unreadable Ptr.null) ∧
    (shell_after (fresh_lines 3 ++ [typed ['!', '5']])).command_count = 4 ∧
    main_iteration (shell_after (fresh_lines 3 ++ [typed ['!', '5']])) (typed history_word)
      = .error (.args_unreadable (sample_garbage 5).args) := by
  refine ⟨by rfl, by rfl, by rfl, by decide, by rfl, by rfl, by rfl, by rfl, by rfl⟩

/-- C8: with no command recorded, `!!` makes the loop evaluate `history[-1]`; the
code has no test of `command_count` in front of that access, of `fork` or of
`add_command_to_history`. -/
theorem bang_bang_empty_history (garbage : Nat → Hist_Entry) (before : Char) :
    (Shell.init garbage).command_count = 0 ∧
    main_iteration (Shell.init garbage) { before := before, line := ['!', '!', '\n'], fork_ok := true }
      = .error (.history_index (-1)) ∧
    main_iteration (Shell.init garbage) { before := before, line := ['!', '!'], fork_ok := true }
      = .error (.history_index (-1)) := by
  refine ⟨by rfl, by rfl, by rfl⟩

/-! ### The empty line -/

theorem preprocess_empty_line (before : Char) :
    preprocess { before := before, bytes := ['\n'] ++ [NUL] }
      = { buf := { before := before, bytes := [NUL, NUL] },
          should_wait := if before = '&' then 0 else 1 } := by
  have h1 := strip_newline_yes before [] [] (by simp)
  simp only [List.nil_append] at h1
  unfold preprocess
  rw [show ['\n'] ++ [NUL] = ['\n', NUL] from rfl, h1]
  have hl : strlen [NUL, NUL] = 0 := by rfl
  have hg : LineBuf.get { before := before, bytes := [NUL, NUL] } (((0 : Nat) : Int) - 1)
      = before := by rfl
  have hp : LineBuf.put { before := before, bytes := [NUL, NUL] } (((0 : Nat) : Int) - 2) NUL
      = { before := before, bytes := [NUL, NUL] } := by rfl
  unfold strip_ampersand
  simp only [hl, hg, hp]
  by_cases hb : before = '&'
  · simp only [if_pos hb]
  · simp only [if_neg hb]

/-- What the iteration does with the empty line (a lone newline), which no test
of `main` singles out. With `n` commands recorded (`n` within the range of the
`int` counter), it builds the `args` array of the one empty argument followed by
`NULL`, has a child run it, stores the line buffer and that array in slot
`n mod 10` and makes the count `n + 1`; the wait flag is taken from the byte in
front of the buffer, which `cmd[strlen(cmd)-1]` reads. -/
theorem empty_line_dispatched (s : Shell) (hc : 0 ≤ s.command_count)
    (hm : s.command_count < INT_MAX) (before : Char) :
    (parse_args [NUL, NUL]).cells = [some [], none] ∧
    ∃ fr, main_iteration s { before := before, line := ['\n'], fork_ok := true }
      = .ok ({ history := s.history.set (s.command_count.toNat % 10)
                 { cmd := s.cmd, args := Ptr.heap s.next_block 0 }
               command_count := s.command_count + 1
               cmd := Ptr.heap (s.next_block + 1) 0
               next_block := s.next_block + 1 + 1
               arrays := (s.next_block, parse_args [NUL, NUL]) :: s.arrays
               freed := s.freed ++ fr },
             .dispatched (Ptr.heap s.next_block 0) (if before = '&' then 0 else 1)) := by
  refine ⟨by rfl, ?_⟩
  have hw : wrap_int (s.command_count + 1) = s.command_count + 1 := by
    unfold wrap_int
    unfold INT_MAX at hm
    omega
  obtain ⟨fr, hd⟩ := main_dispatch_record s [NUL, NUL] (if before = '&' then 0 else 1)
    { cmd := s.cmd, args := Ptr.heap s.next_block 0, next_block := s.next_block + 1,
      arrays := (s.next_block, parse_args [NUL, NUL]) :: s.arrays }
    (by decide) (by decide) (by rfl) hc
  rw [hw] at hd
  refine ⟨fr, ?_⟩
  unfold main_iteration
  simp only [preprocess_empty_line]
  exact hd

/-- C9: none of the three lines is refused. Typed first, `!x` and `!` leave
`args` at `NULL`; a child is forked to run `execvp(args[0], args)` through that
null pointer, and the line is recorded as command 0 with `args = NULL`. After
three commands `!x` is recorded as command 3 in the same way. The empty line is
split into one empty argument, a child is forked to run it, and the line is
recorded as command 0, which `history` then lists. -/
theorem parse_error_lines_recorded :
    (main_iteration (Shell.init sample_garbage) (typed ['!', 'x'])).map
        (fun r => (r.1.command_count, r.1.history[0]?, r.2))
      = .ok (1, some { cmd := Ptr.heap 0 0, args := Ptr.null }, .dispatched Ptr.null 1) ∧
    (main_iteration (Shell.init sample_garbage) (typed ['!'])).map
        (fun r => (r.1.command_count, r.1.history[0]?, r.2))
      = .ok (1, some { cmd := Ptr.heap 0 0, args := Ptr.null }, .dispatched Ptr.null 1) ∧
    (shell_after (fresh_lines 3)).command_count = 3 ∧
    (main_iteration (shell_after (fresh_lines 3)) (typed ['!', 'x'])).map
        (fun r => (r.1.command_count, r.1.history[3]?, r.2))
      = .ok (4, some { cmd := Ptr.heap 6 0, args := Ptr.null }, .dispatched Ptr.null 1) ∧
    (main_iteration (Shell.init sample_garbage) (typed [])).map
        (fun r => (r.1.command_count, r.1.history[0]?, r.2))
      = .ok (1, some { cmd := Ptr.heap 0 0, args := Ptr.heap 1 0 },
          .dispatched (Ptr.heap 1 0) 1) ∧
    (shell_after [typed []]).mem (Ptr.heap 1 0) = some [some [], none] ∧
    (main_iteration (shell_after [typed []]) (typed history_word)).map Prod.snd
      = .ok (.printed (history_line 0 [[]])) := by
  refine ⟨by rfl, by rfl, by rfl, by rfl, by rfl, by rfl, by rfl⟩

/-! ### The size of the `args` array -/

theorem parse_args_slots (s tail : List Char) (h : NUL ∉ s) :
    (parse_args (s ++ NUL :: tail)).slots = s.count ' ' + 1 ∧
    (s.count ' ' + 1, none) ∈ (parse_args (s ++ NUL :: tail)).writes := by
  have hf : s.length < (s ++ NUL :: tail).length + 1 := by simp; omega
  have hcount := parse_args_count_spec s [] tail _ 0 h hf
  obtain ⟨st, h1, _, h3⟩ := parse_args_split_spec s [] tail [] 0 0 _ h hf
  simp only [List.nil_append, List.length_nil] at hcount h1 h3
  have hidx := congrArg (List.map Prod.fst) h3
  rw [logFrom_fst] at hidx
  have hlen : (fieldStarts 0 0 s).length = s.count ' ' + 1 := by
    have hr := fieldStarts_read s [] tail 0 h (Nat.le_refl _) (by simp)
    simp only [List.length_nil] at hr
    have := congrArg List.length hr
    rw [List.length_map] at this
    rw [this, ← splitOn_space_length s]
    cases s.splitOn ' ' <;> simp [List.modifyHead]
  have hlast : st.arg_index + 1 = s.count ' ' + 1 := by
    have := congrArg List.getLast? hidx
    simp [hlen, List.range_succ] at this
    omega
  constructor
  · simp only [parse_args, hcount]; omega
  · simp only [parse_args, h1]
    rw [← hlast]
    simp

/-- C19: for the line `ls -la /tmp`, `parse_args` asks `malloc` for 3 pointer
slots (two spaces, plus one) and stores at the indexes 0, 1, 2 and 3: the `NULL`
sentinel goes to `args[3]`, one slot past the end of the array. -/
theorem parse_args_sentinel_overrun :
    (parse_args ("ls -la /tmp".toList ++ [NUL])).slots = 3 ∧
    (parse_args ("ls -la /tmp".toList ++ [NUL])).writes
      = [(0, some 0), (1, some 3), (2, some 7), (3, none)] ∧
    ¬ (∀ w ∈ (parse_args ("ls -la /tmp".toList ++ [NUL])).writes,
        w.1 < (parse_args ("ls -la /tmp".toList ++ [NUL])).slots) := by
  refine ⟨by decide, by decide, by decide⟩

/-! ### Accesses outside the line buffer and outside the history -/

/-- C11: the iteration for the empty line reads `cmd[-1]` and the iteration for
the line `&` stores at `cmd[-1]`, both in front of the buffer; `!!` typed first
evaluates `history[-1]`; `!5` after three commands reads slot 5, which no
command has been recorded in. -/
theorem accesses_outside (before : Char) :
    (-1 : Int) ∈ preprocess_accesses { before := before, bytes := ['\n'] ++ [NUL] } ∧
    preprocess_accesses { before := before, bytes := ['&', '\n'] ++ [NUL] } = [1, 1, 0, -1] ∧
    ¬ in_line_buffer (-1) ∧
    main_iteration (Shell.init sample_garbage)
        { before := before, line := ['!', '!', '\n'], fork_ok := true }
      = .error (.history_index (-1)) ∧
    (shell_after (fresh_lines 3)).command_count = 3 ∧
    (main_iteration (shell_after (fresh_lines 3))
        { before := before, line := ['!', '5', '\n'], fork_ok := true }).map Prod.snd
      = .ok (.dispatched (sample_garbage 5).args 1) := by
  refine ⟨?_, by rfl, by unfold in_line_buffer; omega, by rfl, by rfl, ?_⟩
  · have h1 : strip_newline { before := before, bytes := ['\n'] ++ [NUL] }
        = { before := before, bytes := [NUL, NUL] } := by rfl
    have h2 : strip_newline_accesses { before := before, bytes := ['\n'] ++ [NUL] } = [0, 0] := by
      rfl
    have hl : strlen [NUL, NUL] = 0 := by rfl
    have hg : LineBuf.get { before := before, bytes := [NUL, NUL] } (((0 : Nat) : Int) - 1)
        = before := by rfl
    unfold preprocess_accesses
    rw [h1, h2]
    unfold strip_ampersand_accesses
    simp only [hl, hg]
    by_cases hb : before = '&'
    · simp [hb]
    · simp [hb]
  · have hp : preprocess { before := before, bytes := ['!', '5', '\n'] ++ [NUL] }
        = { buf := { before := before, bytes := ['!', '5', NUL, NUL] }, should_wait := 1 } :=
      preprocess_newline before ['!'] [] '5' (by decide) (by decide)
    unfold main_iteration
    simp only [hp]
    rfl

/-! ### `one_hist_ref` and the release of storage -/

theorem one_hist_ref_loop_iff (hist : List Hist_Entry) (pos fuel : Nat) :
    ∀ i, one_hist_ref_loop hist pos fuel i = true ↔
      ∀ j, i ≤ j → j < i + fuel → j ≠ pos →
        (hist[j]?).map Hist_Entry.args ≠ (hist[pos]?).map Hist_Entry.args := by
  induction fuel with
  | zero =>
    intro i
    simp only [one_hist_ref_loop, true_iff]
    intro j h1 h2
    omega
  | succ f ih =>
    intro i
    unfold one_hist_ref_loop
    by_cases hc : i ≠ pos ∧ (hist[i]?).map Hist_Entry.args = (hist[pos]?).map Hist_Entry.args
    · simp only [if_pos hc]
      constructor
      · intro h; cases h
      · intro h
        exact absurd hc.2 (h i (Nat.le_refl _) (by omega) hc.1)
    · simp only [if_neg hc]
      rw [ih (i + 1)]
      constructor
      · intro h j h1 h2 h3
        by_cases hji : j = i
        · subst hji
          exact fun e => hc ⟨h3, e⟩
        · exact h j (by omega) (by omega) h3
      · intro h j h1 h2 h3
        exact h j (by omega) (by omega) h3

/-- C17: with `count` at 10 or more, `add_command_to_history` hands the `cmd` and
`args` of the entry in slot `count mod 10` to `free` exactly when `one_hist_ref`
is true for that slot, and frees nothing otherwise; with `count` below 10 it
frees nothing; and `one_hist_ref(hist, pos)` is true exactly when no other of
the ten slots holds the same `args` pointer as slot `pos`. -/
theorem release_iff_one_hist_ref (hist : List Hist_Entry) (cmd args : Ptr) (count : Int)
    (old : Hist_Entry) (h0 : 0 ≤ count) (hold : hist[count.toNat % 10]? = some old) :
    (∃ r, add_command_to_history hist cmd args count = .ok r ∧
      (count < 10 → r.released = []) ∧
      (10 ≤ count →
        (one_hist_ref hist (count.toNat % 10) = true → r.released = [old.cmd, old.args]) ∧
        (one_hist_ref hist (count.toNat % 10) = false → r.released = []))) ∧
    (∀ pos, one_hist_ref hist pos = true ↔
      ∀ i, i < 10 → i ≠ pos →
        (hist[i]?).map Hist_Entry.args ≠ (hist[pos]?).map Hist_Entry.args) := by
  constructor
  · obtain ⟨n, rfl⟩ := Int.eq_ofNat_of_zero_le h0
    have hk : ¬ ((((n % 10 : Nat) : Int) < 0) ∨
        (HISTORY_CAPACITY : Int) ≤ ((n % 10 : Nat) : Int)) := by
      unfold HISTORY_CAPACITY; omega
    simp only [Int.toNat_ofNat] at hold ⊢
    refine ⟨{ hist := hist.set (n % 10) { cmd := cmd, args := args }
              count := wrap_int ((n : Int) + 1)
              released :=
                if (HISTORY_CAPACITY : Int) ≤ (n : Int) ∧ one_hist_ref hist (n % 10) = true then
                  match hist[n % 10]? with
                  | some old => [old.cmd, old.args]
                  | none => []
                else [] },
      by unfold add_command_to_history; simp only [tmod_capacity, if_neg hk,
        Int.toNat_ofNat], ?_, ?_⟩
    · intro hlt
      have : ¬ ((HISTORY_CAPACITY : Int) ≤ (n : Int) ∧ one_hist_ref hist (n % 10) = true) := by
        unfold HISTORY_CAPACITY; omega
      simp only [if_neg this]
    · intro hge
      constructor
      · intro h1
        have : (HISTORY_CAPACITY : Int) ≤ (n : Int) ∧ one_hist_ref hist (n % 10) = true :=
          ⟨by unfold HISTORY_CAPACITY; omega, h1⟩
        simp only [if_pos this, hold]
      · intro h1
        have : ¬ ((HISTORY_CAPACITY : Int) ≤ (n : Int) ∧ one_hist_ref hist (n % 10) = true) := by
          rw [h1]; simp
        simp only [if_neg this]
  · intro pos
    unfold one_hist_ref
    rw [one_hist_ref_loop_iff]
    unfold HISTORY_CAPACITY
    constructor
    · intro h i hi hne
      exact h i (Nat.zero_le _) (by omega) hne
    · intro h j _ hj hne
      exact h j (by omega) hne

/-- C17 on the full history of ten fresh commands, at the eleventh call. -/
theorem release_iff_one_hist_ref_witness :
    (0 : Int) ≤ 10 ∧
    (shell_after (fresh_lines 10)).history[(10 : Int).toNat % 10]?
      = some { cmd := Ptr.heap 0 0, args := Ptr.heap 1 0 } ∧
    (∃ r, add_command_to_history (shell_after (fresh_lines 10)).history
        (Ptr.heap 20 0) (Ptr.heap 21 0) 10 = .ok r ∧
      ((10 : Int) < 10 → r.released = []) ∧
      ((10 : Int) ≤ 10 →
        (one_hist_ref (shell_after (fresh_lines 10)).history ((10 : Int).toNat % 10) = true →
          r.released = [Ptr.heap 0 0, Ptr.heap 1 0]) ∧
        (one_hist_ref (shell_after (fresh_lines 10)).history ((10 : Int).toNat % 10) = false →
          r.released = []))) :=
  ⟨by decide, by rfl,
    (release_iff_one_hist_ref (shell_after (fresh_lines 10)).history (Ptr.heap 20 0)
      (Ptr.heap 21 0) 10 { cmd := Ptr.heap 0 0, args := Ptr.heap 1 0 } (by decide) (by rfl)).1⟩

/-! ### Re-execution records an alias -/

theorem resolve_bang_bang (s : Shell) (n : Nat) (tail : List Char) (entry : Hist_Entry)
    (hc : s.command_count = ((n + 1 : Nat) : Int)) (hn : n < 10)
    (h : s.history[n]? = some entry) :
    resolve s ('!' :: '!' :: tail)
      = .ok { cmd := s.cmd, args := entry.args, next_block := s.next_block,
              arrays := s.arrays } := by
  have hi : wrap_int (s.command_count - Int.tmod 1 (HISTORY_CAPACITY : Int)) = (n : Int) := by
    have : Int.tmod 1 (HISTORY_CAPACITY : Int) = 1 := by rfl
    rw [this, hc]
    unfold wrap_int
    omega
  have hg : hist_get s.history (n : Int) = .ok entry := by
    have hk : ¬ ((n : Int) < 0 ∨ (HISTORY_CAPACITY : Int) ≤ (n : Int)) := by
      unfold HISTORY_CAPACITY; omega
    unfold hist_get
    simp only [if_neg hk, Int.toNat_ofNat, h]
  unfold resolve
  have b0 : byteAt ('!' :: '!' :: tail) 0 = '!' := rfl
  have b1 : byteAt ('!' :: '!' :: tail) 1 = '!' := rfl
  simp only [b0, b1, if_true, hi, hg]

theorem replay_bang_bang_records (s : Shell) (n : Nat) (entry : Hist_Entry)
    (hc : s.command_count = ((n + 1 : Nat) : Int)) (hn : n < 10)
    (h : s.history[n]? = some entry) (before : Char) :
    ∃ fr, main_iteration s { before := before, line := ['!', '!', '\n'], fork_ok := true }
      = .ok ({ history := s.history.set ((n + 1) % 10) { cmd := s.cmd, args := entry.args }
               command_count := ((n + 1 : Nat) : Int) + 1
               cmd := Ptr.heap s.next_block 0
               next_block := s.next_block + 1
               arrays := s.arrays
               freed := s.freed ++ fr }, .dispatched entry.args 1) := by
  have hp := preprocess_newline before ['!'] [] '!' (by decide) (by decide)
  have hcount : 0 ≤ s.command_count := by rw [hc]; omega
  obtain ⟨fr, hd⟩ := main_dispatch_record s ['!', '!', NUL, NUL] 1 _
    (by decide) (by decide) (resolve_bang_bang s n [NUL, NUL] entry hc hn h) hcount
  have hw : wrap_int (s.command_count + 1) = ((n + 1 : Nat) : Int) + 1 := by
    rw [hc]; unfold wrap_int; omega
  have ht : s.command_count.toNat % 10 = (n + 1) % 10 := by rw [hc]; rfl
  rw [hw, ht] at hd
  refine ⟨fr, ?_⟩
  unfold main_iteration
  have e : ['!', '!', '\n'] ++ [NUL] = ['!'] ++ '!' :: '\n' :: NUL :: [] := rfl
  have e2 : ['!'] ++ '!' :: NUL :: NUL :: [] = ['!', '!', NUL, NUL] := rfl
  simp only [e, hp, e2]
  exact hd

theorem replay_number_records (garbage : Nat → Hist_Entry) (calls : List (Ptr × Ptr))
    (hn : (calls.length : Int) < INT_MAX) (s : Shell)
    (hs : record_all (fresh_history garbage) 0 [] calls
      = .ok { hist := s.history, count := s.command_count, released := s.freed })
    (N : Nat) (entry : Ptr × Ptr) (hN : calls[N]? = some entry) (hw : calls.length ≤ N + 10)
    (before : Char) :
    ∃ fr, main_iteration s
        { before := before, line := '!' :: Nat.toDigits 10 N ++ ['\n'], fork_ok := true }
      = .ok ({ history := s.history.set (calls.length % 10)
                 { cmd := s.cmd.succ, args := entry.2 }
               command_count := (calls.length : Int) + 1
               cmd := Ptr.heap s.next_block 0
               next_block := s.next_block + 1
               arrays := s.arrays
               freed := s.freed ++ fr }, .dispatched entry.2 1) := by
  obtain ⟨r, hr, hc, hwin, _⟩ := record_all_fresh garbage calls (by omega)
  rw [hs] at hr
  cases hr
  simp only at hc hwin
  have hlt : N < calls.length := by
    rcases Nat.lt_or_ge N calls.length with h | h
    · exact h
    · rw [List.getElem?_eq_none h] at hN; cases hN
  have hslot : s.history[N % 10]? = some { cmd := entry.1, args := entry.2 } := by
    rw [hwin N hlt hw, hN]; rfl
  have hcount : 0 ≤ s.command_count := by rw [hc]; omega
  obtain ⟨Y, c, hY, hnul, hamp, hnl⟩ := bang_number_text N
  have hq : byteAt ('!' :: Nat.toDigits 10 N ++ NUL :: [NUL]) 0 ≠ 'q' := by
    show '!' ≠ 'q'; decide
  have hh : cstrAt ('!' :: Nat.toDigits 10 N ++ NUL :: [NUL]) 0 ≠ history_word := by
    have hn0 : NUL ∉ '!' :: Nat.toDigits 10 N := by rw [hY]; simpa using hnul
    rw [cstrAt_zero _ _ hn0]
    intro h
    have := congrArg List.head? h
    simp [history_word] at this
  have hp := preprocess_newline before ('!' :: Y) [] c hnul hamp
  have e : ('!' :: Nat.toDigits 10 N ++ ['\n']) ++ [NUL]
      = ('!' :: Y) ++ c :: '\n' :: NUL :: [] := by
    rw [hY]; simp
  have e2 : ('!' :: Y) ++ c :: NUL :: NUL :: [] = '!' :: Nat.toDigits 10 N ++ NUL :: [NUL] := by
    rw [hY]; simp
  obtain ⟨fr, hd⟩ := main_dispatch_record s ('!' :: Nat.toDigits 10 N ++ NUL :: [NUL]) 1 _
    hq hh (resolve_bang_number s N _ _ (by omega) hslot) hcount
  have hwr : wrap_int (s.command_count + 1) = (calls.length : Int) + 1 := by
    rw [hc]; unfold wrap_int; unfold INT_MAX at hn; omega
  have ht : s.command_count.toNat % 10 = calls.length % 10 := by rw [hc]; rfl
  rw [hwr, ht] at hd
  refine ⟨fr, ?_⟩
  unfold main_iteration
  simp only [e, hp, e2]
  exact hd

/-- C18: after three fresh commands `!!` records entry 3 with the very `args`
pointer of entry 2 and leaves the slots 0 to 2 as they were; after twelve, `!!`
evaluates `history[11]`, outside the array, where the entry to replay (sequence
number 11) lies in slot 1. -/
theorem replay_past_capacity :
    (shell_after (fresh_lines 3)).history.take 3
      = [{ cmd := Ptr.heap 0 0, args := Ptr.heap 1 0 },
         { cmd := Ptr.heap 2 0, args := Ptr.heap 3 0 },
         { cmd := Ptr.heap 4 0, args := Ptr.heap 5 0 }] ∧
    (main_iteration (shell_after (fresh_lines 3)) (typed ['!', '!'])).map
        (fun r => (r.1.command_count, r.1.history.take 4))
      = .ok (4, [{ cmd := Ptr.heap 0 0, args := Ptr.heap 1 0 },
                 { cmd := Ptr.heap 2 0, args := Ptr.heap 3 0 },
                 { cmd := Ptr.heap 4 0, args := Ptr.heap 5 0 },
                 { cmd := Ptr.heap 6 0, args := Ptr.heap 5 0 }]) ∧
    (shell_after (fresh_lines 12)).command_count = 12 ∧
    (shell_after (fresh_lines 12)).history[1]?
      = some { cmd := Ptr.heap 22 0, args := Ptr.heap 23 0 } ∧
    main_iteration (shell_after (fresh_lines 12)) (typed ['!', '!'])
      = .error (.history_index 11) := by
  refine ⟨by rfl, by rfl, by rfl, by rfl, by rfl⟩

end Osh

/-! ## Theorems on `fact.c` -/

namespace Fact

theorem factorial_le_twelve (n : Nat) (hn : n ≤ 12) : n.factorial ≤ 479001600 := by
  have := Nat.factorial_le hn
  have h12 : Nat.factorial 12 = 479001600 := by decide
  omega

theorem factorial_spec (n : Nat) : n ≤ 12 → ∀ fuel, n < fuel →
    factorial fuel (n : Int) = some (n.factorial : Int) := by
  induction n with
  | zero =>
    intro _ fuel hf
    obtain ⟨f, rfl⟩ : ∃ f, fuel = f + 1 := ⟨fuel - 1, by omega⟩
    simp [factorial]
  | succ n ih =>
    intro hn fuel hf
    obtain ⟨f, rfl⟩ : ∃ f, fuel = f + 1 := ⟨fuel - 1, by omega⟩
    have hne : ¬ (((n + 1 : Nat) : Int) = 0) := by omega
    have hw : Osh.wrap_int (((n + 1 : Nat) : Int) - 1) = (n : Int) := by
      unfold Osh.wrap_int; omega
    have hb := factorial_le_twelve (n + 1) hn
    have hm : Osh.wrap_int (((n + 1 : Nat) : Int) * (n.factorial : Int))
        = ((n + 1).factorial : Int) := by
      have e : ((n + 1 : Nat) : Int) * (n.factorial : Int) = ((n + 1).factorial : Int) := by
        rw [Nat.factorial_succ]; push_cast; ring
      rw [e]
      unfold Osh.wrap_int
      omega
    unfold factorial
    rw [if_neg hne, hw, ih (by omega) f (by omega), Option.map_some', hm]

theorem isPosInt_loop_spec (rest : List Char) :
    ∀ (pre : List Char) (fuel : Nat), Osh.NUL ∉ rest → rest.length < fuel →
      (isPosInt_loop (pre ++ rest ++ [Osh.NUL]) fuel pre.length = true ↔
        ∀ c ∈ rest, c.isDigit = true) := by
  induction rest with
  | nil =>
    intro pre fuel _ hf
    obtain ⟨f, rfl⟩ : ∃ f, fuel = f + 1 := ⟨fuel - 1, by simp at hf; omega⟩
    have hb : Osh.byteAt (pre ++ [] ++ [Osh.NUL]) pre.length = Osh.NUL := by
      simpa using Osh.byteAt_append pre [] Osh.NUL
    unfold isPosInt_loop
    rw [hb, if_pos rfl]
    simp
  | cons c cs ih =>
    intro pre fuel hn hf
    obtain ⟨f, rfl⟩ : ∃ f, fuel = f + 1 := ⟨fuel - 1, by simp at hf; omega⟩
    have hc : c ≠ Osh.NUL := fun e => hn (e ▸ List.mem_cons_self _ _)
    have hcs : Osh.NUL ∉ cs := fun m => hn (List.mem_cons_of_mem _ m)
    have hlen : cs.length < f := by simp at hf; omega
    have e1 : pre ++ c :: cs ++ [Osh.NUL] = pre ++ c :: (cs ++ [Osh.NUL]) := by simp
    have e2 : pre ++ c :: (cs ++ [Osh.NUL]) = (pre ++ [c]) ++ cs ++ [Osh.NUL] := by simp
    have hb : Osh.byteAt (pre ++ c :: cs ++ [Osh.NUL]) pre.length = c := by
      rw [e1]; exact Osh.byteAt_append _ _ _
    have hl : pre.length + 1 = (pre ++ [c]).length := by simp
    unfold isPosInt_loop
    rw [hb, if_neg hc]
    by_cases hd : c.isDigit = true
    · have hd2 : ¬ (c.isDigit = false) := by simp [hd]
      rw [if_neg hd2, e1, e2, hl, ih _ _ hcs hlen]
      simp [hd]
    · have hd2 : c.isDigit = false := by simpa using hd
      rw [if_pos hd2]
      simp [hd2]

theorem isPosInt_iff (s : List Char) (h : Osh.NUL ∉ s) :
    isPosInt (s ++ [Osh.NUL]) = true ↔ ∀ c ∈ s, c.isDigit = true := by
  have := isPosInt_loop_spec s [] ((s ++ [Osh.NUL]).length + 1) h (by simp; omega)
  simpa [isPosInt] using this

theorem atoi_digits_nonneg (s : List Char) : ∀ acc : Int, 0 ≤ acc → 0 ≤ Osh.atoi_digits s acc := by
  induction s with
  | nil => intro acc h; simpa [Osh.atoi_digits] using h
  | cons c cs ih =>
    intro acc h
    unfold Osh.atoi_digits
    by_cases hd : c.isDigit = true
    · rw [if_pos hd]
      apply ih
      have h48 : (48 : Int) ≤ (c.toNat : Int) := by
        have : c.val ≥ 48 := by
          simp only [Char.isDigit, Bool.and_eq_true, decide_eq_true_eq] at hd
          exact hd.1
        have h2 : (48 : Nat) ≤ c.toNat := by
          simpa [Char.toNat, UInt32.le_def] using this
        omega
      omega
    · rw [if_neg hd]; exact h

theorem strtol_value_nonneg_of_digits (s : List Char) (h : ∀ c ∈ s, c.isDigit = true) :
    0 ≤ Osh.strtol_value s := by
  cases s with
  | nil => decide
  | cons d rest =>
    rw [Osh.strtol_value_digit_head d rest (h d (List.mem_cons_self _ _))]
    exact atoi_digits_nonneg _ 0 (Int.le_refl 0)

/-- For an argument made of digits whose value fits an `int`, the program
answers `Overflow` when the value is above 12 and prints the exact factorial of
the value otherwise. -/
theorem fact_main_digits (prog arg : List Char) (hn : Osh.NUL ∉ arg)
    (hp : isPosInt (arg ++ [Osh.NUL]) = true) (hr : Osh.strtol_value arg ≤ Osh.INT_MAX) :
    (12 < Osh.strtol_value arg ∧ fact_main [prog, arg] = some "Overflow\n".toList) ∨
    (∃ m : Nat, m ≤ 12 ∧ Osh.strtol_value arg = (m : Int) ∧
      fact_main [prog, arg] = some (Nat.toDigits 10 m.factorial ++ ['\n'])) := by
  have hd := (isPosInt_iff arg hn).mp hp
  have h0 := strtol_value_nonneg_of_digits arg hd
  have ha := Osh.atoi_of_int_range arg h0 hr
  by_cases h12 : Osh.strtol_value arg ≤ 12
  · right
    obtain ⟨m, hm⟩ := Int.eq_ofNat_of_zero_le h0
    have hm12 : m ≤ 12 := by omega
    refine ⟨m, hm12, hm, ?_⟩
    have hf := factorial_spec m hm12 (m + 1) (Nat.lt_succ_self m)
    have h12' : ((m : Nat) : Int) ≤ 12 := by omega
    rw [hm] at ha
    simp only [fact_main, hp, if_true, ha, h12', Int.toNat_ofNat, hf, Option.map_some',
      Osh.fmt_int_nat]
  · left
    refine ⟨by omega, ?_⟩
    have h12' : ¬ Osh.atoi arg ≤ 12 := by rw [ha]; exact h12
    simp only [fact_main, hp, if_true, if_neg h12']

/-- The exactness of `factorial` up to 12: the results are the mathematical
factorials, all within the range of `int`, while `13!` is outside it and
`factorial(13)` returns another number. -/
theorem factorial_exact_to_twelve :
    (∀ n : Nat, n ≤ 12 → ∀ fuel, n < fuel →
      factorial fuel (n : Int) = some (n.factorial : Int)) ∧
    (∀ n : Nat, n ≤ 12 → (n.factorial : Int) ≤ Osh.INT_MAX) ∧
    Osh.INT_MAX < ((Nat.factorial 13 : Nat) : Int) ∧
    factorial 14 13 = some 1932053504 := by
  refine ⟨factorial_spec, ?_, by decide, by rfl⟩
  intro n hn
  have := factorial_le_twelve n hn
  unfold Osh.INT_MAX
  omega

/-- From a non-negative `n` the recursion of `factorial` is more than `n` calls
deep. -/
theorem factorial_depth (fuel : Nat) :
    ∀ n : Nat, (n : Int) ≤ Osh.INT_MAX → fuel ≤ n → factorial fuel (n : Int) = none := by
  induction fuel with
  | zero => intro n _ _; rfl
  | succ f ih =>
    intro n hn hf
    unfold Osh.INT_MAX at hn
    have hne : ¬ ((n : Int) = 0) := by omega
    have hw : Osh.wrap_int ((n : Int) - 1) = ((n - 1 : Nat) : Int) := by
      unfold Osh.wrap_int
      omega
    unfold factorial
    rw [if_neg hne, hw, ih (n - 1) (by unfold Osh.INT_MAX; omega) (by omega)]
    rfl

/-- From `INT_MIN` the recursion of `factorial` is more than 2^31 calls deep:
`n - 1` wraps to `INT_MAX` and the descent to 0 starts there. -/
theorem factorial_depth_int_min (fuel : Nat) (h : fuel ≤ 2147483648) :
    factorial fuel (-2147483648) = none := by
  cases fuel with
  | zero => rfl
  | succ f =>
    have hw : Osh.wrap_int (-2147483648 - 1) = ((2147483647 : Nat) : Int) := by decide
    unfold factorial
    rw [if_neg (by decide), hw, factorial_depth f 2147483647 (by decide) (by omega)]
    rfl

/-- C12: `13` is answered with `Overflow` and `12` with the exact `12!`, but the
all-digit argument `4294967301` is not answered with `Overflow`: `atoi` cuts its
value down to the `int` 5 and the program prints `120`, which is `5!`; for
`2147483648` the `int` is `INT_MIN`, the test `num <= 12` passes, and
`factorial` does not come back within 2^31 nested calls, so neither `Overflow`
nor a factorial is printed. -/
theorem fact_main_wraps_large_argument :
    fact_main [['f', 'a', 'c', 't'], "12".toList] = some "479001600\n".toList ∧
    fact_main [['f', 'a', 'c', 't'], "13".toList] = some "Overflow\n".toList ∧
    isPosInt ("4294967301".toList ++ [Osh.NUL]) = true ∧
    Osh.strtol_value "4294967301".toList = 4294967301 ∧
    Osh.atoi "4294967301".toList = 5 ∧
    fact_main [['f', 'a', 'c', 't'], "4294967301".toList] = some "120\n".toList ∧
    isPosInt ("2147483648".toList ++ [Osh.NUL]) = true ∧
    Osh.strtol_value "2147483648".toList = 2147483648 ∧
    Osh.atoi "2147483648".toList = -2147483648 ∧
    factorial 2147483648 (-2147483648) = none ∧
    fact_main [['f', 'a', 'c', 't'], "2147483648".toList] = none := by
  refine ⟨by rfl, by rfl, by decide, by decide, by decide, by rfl, by decide, by decide,
    by decide, factorial_depth_int_min _ (Nat.le_refl _), by rfl⟩

/-- C13: `isPosInt` returns true for the empty string and for `0`, neither of
which is the notation of a positive integer, and the program prints `1` for
them instead of `Huh?`; it prints `Huh?` for `-3` and `4x`. -/
theorem isPosInt_accepts_non_positive :
    isPosInt ([] ++ [Osh.NUL]) = true ∧ ¬ is_positive_decimal [] ∧
    isPosInt (['0'] ++ [Osh.NUL]) = true ∧ ¬ is_positive_decimal ['0'] ∧
    fact_main [['f', 'a', 'c', 't'], []] = some ['1', '\n'] ∧
    fact_main [['f', 'a', 'c', 't'], ['0']] = some ['1', '\n'] ∧
    fact_main [['f', 'a', 'c', 't'], ['-', '3']] = some "Huh?\n".toList ∧
    fact_main [['f', 'a', 'c', 't'], ['4', 'x']] = some "Huh?\n".toList := by
  refine ⟨by decide, ?_, by decide, ?_, by rfl, by rfl, by rfl, by rfl⟩
  · intro h; exact h.1 rfl
  · intro h
    obtain ⟨c, hc, hne⟩ := h.2.2
    simp at hc
    exact hne hc

end Fact

/-! ## Theorems on `pager.c` -/

namespace Pager

/-- C16: on the reference string `0 1 0 2 2 1 1 ...` with two frames, the fault
at position 3 finds the pages 0 and 1 resident; page 0 is never referenced
again and the inner loop of `find_most_distant_pos` leaves `distances[0]`
unassigned, where the claim counts it as furthest; `find_max_pos` then compares
an indeterminate value. With the 1 that the call at position 1 computed for
that cell, it picks frame 1, whose page is referenced again at position 5. -/
theorem OPT_MIN_unassigned_distance :
    opt_refs.length = PAGE_REF_STRING_LENGTH ∧ (∀ p ∈ opt_refs, 0 ≤ p ∧ p ≤ 9) ∧
    replace_loop find_most_distant_pos opt_refs 2 3 0 (init_frame_table 2)
        { num_faults := 0, faults := [] }
      = some { num_faults := 2
               faults := [{ pos := 0, frames := [-1, -1], victim := 0 },
                          { pos := 1, frames := [0, -1], victim := 1 }] } ∧
    most_distant_distances opt_refs [0, -1] 1 = [some 1, some 21] ∧
    in_arr [0, 1] 2 = false ∧
    (∀ t, 3 ≤ t → t < PAGE_REF_STRING_LENGTH → opt_refs[t]? ≠ some 0) ∧
    most_distant_distances opt_refs [0, 1] 3 = [none, some 2] ∧
    find_most_distant_pos opt_refs [0, 1] 2 3 = none ∧
    OPT_MIN opt_refs 2 = none ∧
    find_max_pos [some 1, some 2] 2 = some 1 := by
  refine ⟨by decide, by decide, by decide, by decide, by decide, by decide, by decide,
    by decide, by decide, by decide⟩

end Pager
